import Mathlib

/-!
A shallow embedding of the `cranelift_codegen_wasm` translator
(a Cranelift-IR to WebAssembly back-end) together with proofs about it.

The embedding follows the Rust sources:
  * `src/optable.rs`        — operand classifier (`OperandTable::fill`, `Operand`)
  * `src/conversions/ty.rs`   — `wasm_of_cranelift`
  * `src/conversions/cond.rs` — `wasm_of_cond`
  * `src/conversions/inst.rs` — `build_wasm_inst`, `translate_value`
  * `src/conversions/block.rs`— `build_from_pos`, `build_wasm_block`, `CanBranchTo`
  * `src/lib.rs`            — `compile_structured`, `define_function`, data items

Modelling conventions:
  * Rust panics (`panic!`, `todo!`, `unimplemented!`, `unreachable!`, failed
    `unwrap`/`assert!`) are modelled as `Except.error` with a constructor
    naming the kind of failure.
  * The mutually recursive emitters take a fuel parameter decremented on
    every call; exhaustion is the distinguished error `Err.fuel`, so a
    `.ok` result or a non-fuel error is always a statement about the
    real program.
  * Rust `FnvHashMap`s are modelled as association lists in first-insertion
    order with overwrite-in-place semantics.  The real hash map iterates in a
    hash-dependent order; every theorem below that depends on the *contents*
    of a map is order-independent, and the single place where the Rust code
    iterates over a map (`jump_to.iter()` when writing block-parameter
    locals) is only evaluated here on maps with at most one entry, where
    every iteration order coincides.
-/

namespace CW

abbrev Value := Nat
abbrev BlockId := Nat
abbrev InstId := Nat
abbrev LocalId := Nat
abbrev SeqId := Nat

/-- WebAssembly value types (walrus `ValType`, restricted to what the
translator produces). -/
inductive ValType
  | I32
  | I64
  | F32
  | F64
  deriving DecidableEq

/-- Cranelift scalar types used by the translator (`ir::types`): integers,
floats and booleans of the relevant widths. -/
inductive ClifType
  | I8
  | I16
  | I32
  | I64
  | F32
  | F64
  | B1
  | B8
  | B32
  | B64
  deriving DecidableEq

/-- Width in bits of a Cranelift type (`Type::bits`). -/
def ClifType.bits : ClifType → Nat
  | .I8 => 8
  | .I16 => 16
  | .I32 => 32
  | .I64 => 64
  | .F32 => 32
  | .F64 => 64
  | .B1 => 1
  | .B8 => 8
  | .B32 => 32
  | .B64 => 64

/-- Whether a Cranelift type is an integer type (`Type::is_int`). -/
def ClifType.is_int : ClifType → Bool
  | .I8 => true
  | .I16 => true
  | .I32 => true
  | .I64 => true
  | _ => false

/-- Whether a Cranelift type is a boolean type (`Type::is_bool`). -/
def ClifType.is_bool : ClifType → Bool
  | .B1 => true
  | .B8 => true
  | .B32 => true
  | .B64 => true
  | _ => false

/-- Whether a Cranelift type is a float type (`Type::is_float`). -/
def ClifType.is_float : ClifType → Bool
  | .F32 => true
  | .F64 => true
  | _ => false

/-- Transliteration of `conversions/ty.rs::wasm_of_cranelift`.  The Rust
function panics (`todo!()`) on unsupported types, modelled as `none`. -/
def wasm_of_cranelift (ty : ClifType) : Option ValType :=
  if ty.is_int && ty.bits == 32 then some .I32
  else if ty.is_int && ty.bits == 64 then some .I64
  else if ty.is_float && ty.bits == 32 then some .F32
  else if ty.is_float && ty.bits == 64 then some .F64
  else none

/-- Cranelift integer condition codes (`ir::condcodes::IntCC`). -/
inductive IntCC
  | Equal
  | NotEqual
  | SignedLessThan
  | SignedGreaterThanOrEqual
  | SignedGreaterThan
  | SignedLessThanOrEqual
  | UnsignedLessThan
  | UnsignedGreaterThanOrEqual
  | UnsignedGreaterThan
  | UnsignedLessThanOrEqual
  | Overflow
  | NotOverflow
  deriving DecidableEq

/-- The walrus binary operators emitted by the translator. -/
inductive BinaryOp
  | I32Add
  | I64Add
  | I32Sub
  | I64Sub
  | I32Eq
  | I64Eq
  | I32Ne
  | I64Ne
  | I32LeU
  | I64LeU
  deriving DecidableEq

/-- Transliteration of `conversions/cond.rs::wasm_of_cond`.  Every arm that is
`todo!()` in the Rust source is modelled as `none`; only `Equal` and
`UnsignedLessThanOrEqual` are implemented. -/
def wasm_of_cond (cond : IntCC) (bits_32 : Bool) : Option BinaryOp :=
  match cond with
  | .Equal => if bits_32 then some .I32Eq else some .I64Eq
  | .UnsignedLessThanOrEqual => if bits_32 then some .I32LeU else some .I64LeU
  | _ => none

/-- Cranelift opcodes that the translator inspects. -/
inductive Opcode
  | Iconst
  | Iadd
  | Isub
  | IaddImm
  | Icmp
  | IcmpImm
  | Jump
  | Brz
  | Brnz
  | Return
  deriving DecidableEq

/-- The `InstructionData` variants the translator matches on
(`cranelift_codegen::ir::InstructionData`).  Argument lists follow the Rust
layout: for `Branch` the first element of `args` is the condition and the
remainder are block arguments. -/
inductive InstructionData
  | Jump (args : List Value) (destination : BlockId)
  | Branch (opcode : Opcode) (args : List Value) (destination : BlockId)
  | MultiAry (opcode : Opcode) (args : List Value)
  | Binary (opcode : Opcode) (arg0 arg1 : Value)
  | BinaryImm64 (opcode : Opcode) (arg : Value) (imm : Int)
  | Unary (opcode : Opcode) (arg : Value)
  | UnaryImm (opcode : Opcode) (imm : Int)
  | IntCompare (opcode : Opcode) (cond : IntCC) (arg0 arg1 : Value)
  | IntCompareImm (opcode : Opcode) (cond : IntCC) (arg : Value) (imm : Int)
  | AtomicCas (args : List Value)
  | AtomicRmw (args : List Value)
  deriving DecidableEq

/-- `dfg.inst_args`: the value operands of an instruction, in order. -/
def inst_args : InstructionData → List Value
  | .Jump args _ => args
  | .Branch _ args _ => args
  | .MultiAry _ args => args
  | .Binary _ a b => [a, b]
  | .BinaryImm64 _ arg _ => [arg]
  | .Unary _ arg => [arg]
  | .UnaryImm _ _ => []
  | .IntCompare _ _ a b => [a, b]
  | .IntCompareImm _ _ arg _ => [arg]
  | .AtomicCas args => args
  | .AtomicRmw args => args

/-- `dfg.value_def`: where an SSA value is defined. -/
inductive ValueDef
  | Result (inst : InstId) (num : Nat)
  | Param (block : BlockId) (num : Nat)
  deriving DecidableEq

/-- One basic block of the source function: its ordered block parameters and
its ordered instructions. -/
structure BlockData where
  params : List Value
  insts : List InstId
  deriving DecidableEq

/-- The part of a Cranelift function the translator reads: the layout (blocks
in layout order) and the data-flow graph. -/
structure Func where
  blocks : List (BlockId × BlockData)
  inst_data : InstId → InstructionData
  inst_results : InstId → List Value
  value_def : Value → ValueDef
  value_type : Value → ClifType

/-- All instructions of the function in layout order (blocks in layout order,
instructions in block order), as iterated by `OperandTable::fill`. -/
def Func.layout_insts (f : Func) : List InstId :=
  (f.blocks.map (fun b => b.2.insts)).flatten

/-- The operand occurrence stream of `OperandTable::fill`: for every
instruction in layout order, its `inst_args` in order. -/
def Func.operand_occurrences (f : Func) : List Value :=
  (f.layout_insts.map (fun i => inst_args (f.inst_data i))).flatten

/-! Association lists standing in for `FnvHashMap` / `FnvHashSet`. -/

/-- Lookup in an association list (`HashMap::get`). -/
def alist_lookup {K V : Type} [DecidableEq K] (k : K) : List (K × V) → Option V
  | [] => none
  | (k', v) :: rest => if k' = k then some v else alist_lookup k rest

/-- Insert with overwrite (`HashMap::insert`), keeping the first-insertion
position of an existing key. -/
def alist_insert {K V : Type} [DecidableEq K] (k : K) (v : V) :
    List (K × V) → List (K × V)
  | [] => [(k, v)]
  | (k', v') :: rest =>
    if k' = k then (k, v) :: rest else (k', v') :: alist_insert k v rest

/-- Set insertion (`HashSet::insert`). -/
def set_insert {K : Type} [DecidableEq K] (k : K) (s : List K) : List K :=
  if k ∈ s then s else k :: s

/-- The walrus `ModuleLocals` arena: local `i` has type `types[i]`; the next
fresh id is `types.length`. -/
structure ModuleLocals where
  types : List ValType
  deriving DecidableEq

/-- `ModuleLocals::add`: allocate a fresh typed local, returning its id. -/
def ModuleLocals.add (m : ModuleLocals) (ty : ValType) : LocalId × ModuleLocals :=
  (m.types.length, ⟨m.types ++ [ty]⟩)

/-! The operand classifier, `src/optable.rs`. -/

/-- The per-function operand table (`optable.rs::OperandTable`). -/
structure OperandTable where
  value_uses : List (Value × Nat)
  rematerialize : List Value
  block_params : List (BlockId × List (Value × LocalId))
  deriving DecidableEq

/-- Classification of an operand (`optable.rs::Operand`). -/
inductive Operand
  | SingleUse (v : Value)
  | NormalUse (v : Value)
  | Rematerialise (v : Value)
  deriving DecidableEq

/-- Transliteration of `Operand::try_from_table`. -/
def Operand.try_from_table (value : Value) (table : OperandTable) : Option Operand :=
  if value ∈ table.rematerialize then some (.Rematerialise value)
  else
    match alist_lookup value table.value_uses with
    | none => none
    | some val =>
      if val = 0 || val = 1 then some (.SingleUse value) else some (.NormalUse value)

/-- The defining-opcode test of `OperandTable::fill`: `Unary`/`UnaryImm` with
opcode `Iconst` is inserted into `rematerialize` and skips the use count. -/
def def_rematerialises : InstructionData → Bool
  | .Unary op _ => match op with | .Iconst => true | _ => false
  | .UnaryImm op _ => match op with | .Iconst => true | _ => false
  | _ => false

/-- Mutable state of the `OperandTable::fill` pass. -/
structure FillState where
  value_uses : List (Value × Nat)
  rematerialize : List Value
  block_params : List (BlockId × List (Value × LocalId))
  module_locals : ModuleLocals
  deriving DecidableEq

/-- Failure modes of the translator, mirroring how the Rust code dies. -/
inductive Err
  | fuel
  | internal
  | todoE
  | panicE
  | unwrapE
  | assertE
  | unreachableE
  | unimplementedE
  deriving DecidableEq

/-- `*value_uses.entry(v).or_insert(0) += 1`. -/
def bump_use (v : Value) (uses : List (Value × Nat)) : List (Value × Nat) :=
  alist_insert v ((alist_lookup v uses).getD 0 + 1) uses

/-- `block_params.entry(block).and_modify(insert).or_insert(singleton)`. -/
def bp_insert (b : BlockId) (v : Value) (l : LocalId) :
    List (BlockId × List (Value × LocalId)) → List (BlockId × List (Value × LocalId))
  | [] => [(b, [(v, l)])]
  | (b', m) :: rest =>
    if b' = b then (b', alist_insert v l m) :: rest else (b', m) :: bp_insert b v l rest

/-- One iteration of the `for (value, _) in params` loop of
`OperandTable::fill`.  A block-parameter occurrence allocates a fresh local of
the mapped type (panicking — `none` — if the type is unsupported); an
instruction result either joins `rematerialize` (when its definition is an
integer constant) or has its use count bumped. -/
def fill_step (f : Func) (st : FillState) (v : Value) : Except Err FillState :=
  match f.value_def v with
  | .Param b _ =>
    match wasm_of_cranelift (f.value_type v) with
    | none => .error .todoE
    | some ty =>
      let (loc, ml) := st.module_locals.add ty
      .ok { st with block_params := bp_insert b v loc st.block_params,
                    module_locals := ml }
  | .Result inst _ =>
    if def_rematerialises (f.inst_data inst) then
      .ok { st with rematerialize := set_insert v st.rematerialize }
    else
      .ok { st with value_uses := bump_use v st.value_uses }

/-- The `for` loop of `OperandTable::fill` over the occurrence stream. -/
def fill_go (f : Func) : List Value → FillState → Except Err FillState
  | [], st => .ok st
  | v :: rest, st => do
    let st' ← fill_step f st v
    fill_go f rest st'

/-- Transliteration of `OperandTable::fill`. -/
def OperandTable.fill (f : Func) (ml : ModuleLocals) :
    Except Err (OperandTable × ModuleLocals) := do
  let st ← fill_go f f.operand_occurrences ⟨[], [], [], ml⟩
  .ok (⟨st.value_uses, st.rematerialize, st.block_params⟩, st.module_locals)

/-! The emitted WebAssembly, `walrus` instruction sequences. -/

/-- The walrus instructions the translator emits.  `if_else` and `loop_` hold
their nested sequences; `loop_` also records the sequence id that `br`
instructions target. -/
inductive WasmInstr
  | local_get (l : LocalId)
  | local_set (l : LocalId)
  | i32_const (n : Int)
  | i64_const (n : Int)
  | binop (op : BinaryOp)
  | br (seq : SeqId)
  | br_if (seq : SeqId)
  | return_
  | unreachable
  | if_else (then_seq else_seq : List WasmInstr)
  | loop_ (seq : SeqId) (body : List WasmInstr)

/-- The `u32 as i32` cast used for `destination.as_u32() as i32`, and the
`i64 as i32` truncation used for 32-bit immediates. -/
def to_i32 (n : Int) : Int :=
  (n + 2 ^ 31) % 2 ^ 32 - 2 ^ 31

/-- `i32::MAX`. -/
def i32_max : Int := 2 ^ 31 - 1

/-- The relooper's `BranchMode` (crate `relooper`). -/
inductive BranchMode
  | LoopBreak (id : Nat)
  | LoopBreakIntoMulti (id : Nat)
  | LoopContinue (id : Nat)
  | LoopContinueIntoMulti (id : Nat)
  | MergedBranch
  | MergedBranchIntoMulti
  | SetLabelAndBreak
  deriving DecidableEq

/-- `block.rs::BranchInstr`. -/
inductive BranchInstr
  | SetLocal (l : LocalId)
  deriving DecidableEq

/-- `block.rs::CanBranchTo`. -/
structure CanBranchTo where
  from_relooper : List (BlockId × BranchMode)
  locally_computed : List (BlockId × BranchInstr)

/-- The mutable per-function translation state threaded through the emitters
(the `&mut` fields of `IndividualFunctionTranslator` plus the walrus
sequence-id allocator). -/
structure TransState where
  module_locals : ModuleLocals
  locals : List (Value × LocalId)
  loop_to_block : List (Nat × SeqId)
  next_seq : Nat
  deriving DecidableEq

/-- The `negate` flag of the `Branch` arm of `build_from_pos` (lines 135–142
of `block.rs`): true exactly when the destination's relooper mode is
`LoopBreak`. -/
def branch_negate (cbt : CanBranchTo) (destination : BlockId) : Bool :=
  match alist_lookup destination cbt.from_relooper with
  | some (.LoopBreak _) => true
  | some _ => false
  | none => false

/-- The pre-condition part of the negation (lines 169–175 of `block.rs`): a
zero constant pushed before the condition when negating. -/
def branch_negate_pre (negate : Bool) (ty : ClifType) : List WasmInstr :=
  if negate then
    if ty.bits = 64 then [.i64_const 0]
    else if ty.bits ≤ 32 then [.i32_const 0]
    else []
  else []

/-- The post-condition part of the negation (lines 181–187 of `block.rs`): a
subtraction completing `0 - cond` when negating. -/
def branch_negate_post (negate : Bool) (ty : ClifType) : List WasmInstr :=
  if negate then
    if ty.bits = 64 then [.binop .I64Sub] else [.binop .I32Sub]
  else []

/-- The condition normalisation of `build_from_pos` (lines 189–218 of
`block.rs`): `iN.eq 0` for `Brz` and `iN.ne 0` for `Brnz` on non-boolean
types, nothing for booleans, `unreachable!()` for integers wider than 64
bits.  Opcodes other than `Brz`/`Brnz` fall through both `if`s and add
nothing. -/
def cond_norm (opcode : Opcode) (ty : ClifType) : Except Err (List WasmInstr) := do
  let norm1 ←
    if opcode = Opcode.Brz then
      if ty.is_bool then Except.ok []
      else if ty.bits = 64 then Except.ok [WasmInstr.i64_const 0, .binop .I64Eq]
      else if ty.bits ≤ 32 then Except.ok [WasmInstr.i32_const 0, .binop .I32Eq]
      else Except.error Err.unreachableE
    else Except.ok []
  let norm2 ←
    if opcode = Opcode.Brnz then
      if ty.is_bool then Except.ok []
      else if ty.bits = 64 then Except.ok [WasmInstr.i64_const 0, .binop .I64Ne]
      else if ty.bits ≤ 32 then Except.ok [WasmInstr.i32_const 0, .binop .I32Ne]
      else Except.error Err.unreachableE
    else Except.ok []
  .ok (norm1 ++ norm2)

mutual

/-- Transliteration of `inst.rs::translate_value`. -/
def translate_value (f : Func) (tbl : OperandTable) (cbt : CanBranchTo) :
    Nat → Value → TransState → Except Err (TransState × List WasmInstr)
  | 0, _, _ => .error .fuel
  | fuel + 1, operand, st =>
    match f.value_def operand with
    | .Result _ _ =>
      -- `Operand::from_table` is `try_from_table(..).unwrap()`
      match Operand.try_from_table operand tbl with
      | none => .error .unwrapE
      | some (.SingleUse val) =>
        -- `value_def(val).unwrap_inst()`
        match f.value_def val with
        | .Result inst _ => build_wasm_inst f tbl cbt fuel inst st
        | .Param _ _ => .error .panicE
      | some (.NormalUse val) =>
        match alist_lookup val st.locals with
        | some loc => .ok (st, [.local_get loc])
        | none =>
          match f.value_def val with
          | .Param _ _ => .error .panicE
          | .Result inst _ => do
            let (st1, code) ← build_wasm_inst f tbl cbt fuel inst st
            match wasm_of_cranelift (f.value_type val) with
            | none => .error .todoE
            | some wty =>
              let (arg, ml) := st1.module_locals.add wty
              let st2 := { st1 with module_locals := ml,
                                    locals := alist_insert val arg st1.locals }
              .ok (st2, code ++ [.local_set arg, .local_get arg])
      | some (.Rematerialise val) =>
        match f.value_def val with
        | .Result inst _ => build_wasm_inst f tbl cbt fuel inst st
        | .Param _ _ => .error .panicE
    | .Param block _ =>
      -- `block_params.get(&block).map(|res| res.get(&operand)).flatten().unwrap()`
      match alist_lookup block tbl.block_params with
      | some m =>
        match alist_lookup operand m with
        | some loc => .ok (st, [.local_get loc])
        | none => .error .unwrapE
      | none => .error .unwrapE

/-- Transliteration of `inst.rs::build_wasm_inst`. -/
def build_wasm_inst (f : Func) (tbl : OperandTable) (cbt : CanBranchTo) :
    Nat → InstId → TransState → Except Err (TransState × List WasmInstr)
  | 0, _, _ => .error .fuel
  | fuel + 1, inst, st =>
    match f.inst_data inst with
    | .AtomicCas _ => .error .panicE
    | .AtomicRmw _ => .error .panicE
    | .Binary opcode a b => do
      let (st1, c1) ← translate_value f tbl cbt fuel a st
      let (st2, c2) ← translate_value f tbl cbt fuel b st1
      match opcode with
      | .Iadd =>
        let ty := f.value_type a
        if ty = .I32 then .ok (st2, c1 ++ c2 ++ [.binop .I32Add])
        else if ty = .I64 then .ok (st2, c1 ++ c2 ++ [.binop .I64Add])
        else .error .unreachableE
      | .Isub =>
        let ty := f.value_type a
        if ty = .I32 then .ok (st2, c1 ++ c2 ++ [.binop .I32Sub])
        else if ty = .I64 then .ok (st2, c1 ++ c2 ++ [.binop .I64Sub])
        else .error .unreachableE
      | _ => .error .panicE
    | .UnaryImm opcode imm =>
      match opcode with
      | .Iconst =>
        match f.inst_results inst with
        | [] => .error .panicE
        | val :: _ =>
          let ty := f.value_type val
          if ty.is_int then
            if ty.bits = 64 then .ok (st, [.i64_const imm])
            else if ty.bits = 32 then .ok (st, [.i32_const (to_i32 imm)])
            else .ok (st, [])
          else .error .assertE
      | _ => .error .panicE
    | .IntCompare opcode cond a b => do
      let (st1, c1) ← translate_value f tbl cbt fuel a st
      let (st2, c2) ← translate_value f tbl cbt fuel b st1
      let ty := f.value_type a
      if ty.is_int then
        match opcode with
        | .Icmp =>
          match cond with
          | .NotEqual =>
            if ty.bits = 64 then .ok (st2, c1 ++ c2 ++ [.binop .I64Ne])
            else if ty.bits = 32 then .ok (st2, c1 ++ c2 ++ [.binop .I32Ne])
            else .error .panicE
          | .Equal =>
            if ty.bits = 64 then .ok (st2, c1 ++ c2 ++ [.binop .I64Eq])
            else if ty.bits = 32 then .ok (st2, c1 ++ c2 ++ [.binop .I32Eq])
            else .error .panicE
          | _ => .error .todoE
        | _ => .error .panicE
      else .error .assertE
    | .IntCompareImm opcode cond arg imm =>
      let ty := f.value_type arg
      if ty.is_int then
        match opcode with
        | .IcmpImm => do
          let (st1, c1) ← translate_value f tbl cbt fuel arg st
          let immCode ←
            if ty.bits = 64 then Except.ok [WasmInstr.i64_const imm]
            else if ty.bits = 32 then Except.ok [WasmInstr.i32_const (to_i32 imm)]
            else Except.error Err.unimplementedE
          match wasm_of_cond cond (ty.bits == 32) with
          | none => .error .todoE
          | some op => .ok (st1, c1 ++ immCode ++ [.binop op])
        | _ => .error .panicE
      else .error .assertE
    | .Jump _ _ => .error .unreachableE
    | .Branch _ _ _ => .error .unreachableE
    | .MultiAry _ _ => .error .unreachableE
    | .BinaryImm64 opcode arg imm =>
      match opcode with
      | .IaddImm =>
        let ty := f.value_type arg
        if ty.is_int then do
          let (st1, c1) ← translate_value f tbl cbt fuel arg st
          if ty.bits = 64 then .ok (st1, c1 ++ [.i64_const imm, .binop .I64Add])
          else if ty.bits = 32 then .ok (st1, c1 ++ [.i32_const (to_i32 imm), .binop .I32Add])
          else .error .unimplementedE
        else .error .assertE
      | _ => .ok (st, [])
    | .Unary _ _ => .error .panicE

/-- The `for (value, (_, local)) in args.iter().zip(jump_to.iter())` loop of
the `Jump` and `Branch` arms of `build_from_pos`: emit each value, then
`local.set` its paired block-parameter local. -/
def emit_jump_args (f : Func) (tbl : OperandTable) (cbt : CanBranchTo) :
    Nat → List (Value × (Value × LocalId)) → TransState →
    Except Err (TransState × List WasmInstr)
  | 0, _, _ => .error .fuel
  | _ + 1, [], st => .ok (st, [])
  | fuel + 1, (value, (_, loc)) :: rest, st => do
    let (st1, c) ← translate_value f tbl cbt fuel value st
    let (st2, more) ← emit_jump_args f tbl cbt fuel rest st1
    .ok (st2, c ++ [.local_set loc] ++ more)

/-- The block-parameter writes performed for an outgoing edge: if the operand
table has a `block_params` entry for the destination, zip the given argument
values against it and emit value/`local.set` pairs; otherwise emit nothing
(the `else` branch that merely logs). -/
def edge_writes (f : Func) (tbl : OperandTable) (cbt : CanBranchTo)
    (fuel : Nat) (destination : BlockId) (argvals : List Value)
    (st : TransState) : Except Err (TransState × List WasmInstr) :=
  match alist_lookup destination tbl.block_params with
  | some jump_to => emit_jump_args f tbl cbt fuel (argvals.zip jump_to) st
  | none => .ok (st, [])

/-- The `for arg in args { translate_value(..) }` loop of the `Return` arm. -/
def emit_values (f : Func) (tbl : OperandTable) (cbt : CanBranchTo) :
    Nat → List Value → TransState → Except Err (TransState × List WasmInstr)
  | 0, _, _ => .error .fuel
  | _ + 1, [], st => .ok (st, [])
  | fuel + 1, v :: rest, st => do
    let (st1, c) ← translate_value f tbl cbt fuel v st
    let (st2, more) ← emit_values f tbl cbt fuel rest st1
    .ok (st2, c ++ more)

/-- Transliteration of `block.rs::build_from_pos`.  The instruction list is
the cursor position; the returned list is the cursor position on exit, which
is non-empty exactly when the `LoopBreak` arm of the `Jump` case did an early
`return` (the caller of an `if_else` else-arm recursion continues from
there). -/
def build_from_pos (f : Func) (tbl : OperandTable) (cbt : CanBranchTo) :
    Nat → List InstId → TransState →
    Except Err (TransState × List WasmInstr × List InstId)
  | 0, _, _ => .error .fuel
  | _ + 1, [], st => .ok (st, [], [])
  | fuel + 1, inst :: rest, st =>
    match f.inst_data inst with
    | .Jump args destination => do
      let (st1, writes) ← edge_writes f tbl cbt fuel destination args st
      match alist_lookup destination cbt.locally_computed with
      | some (.SetLocal loc) => do
        let (st2, more, rem) ← build_from_pos f tbl cbt fuel rest st1
        .ok (st2, writes ++ [.i32_const (to_i32 destination), .local_set loc] ++ more, rem)
      | none =>
        match alist_lookup destination cbt.from_relooper with
        | some (.LoopContinue id) =>
          match alist_lookup id st1.loop_to_block with
          | none => .error .internal
          | some seq_id => do
            let (st2, more, rem) ← build_from_pos f tbl cbt fuel rest st1
            .ok (st2, writes ++ [.br seq_id] ++ more, rem)
        | some (.LoopBreak _) =>
          -- "we simply don't build any of the remaining blocks": early return
          .ok (st1, writes, rest)
        | some _ => .error .todoE
        | none => do
          let (st2, more, rem) ← build_from_pos f tbl cbt fuel rest st1
          .ok (st2, writes ++ more, rem)
    | .MultiAry opcode args =>
      match opcode with
      | .Return => do
        let (st1, acode) ← emit_values f tbl cbt fuel args st
        let (st2, more, rem) ← build_from_pos f tbl cbt fuel rest st1
        .ok (st2, acode ++ [.return_] ++ more, rem)
      | _ => .error .panicE
    | .Branch opcode args destination => do
      let negate := branch_negate cbt destination
      let (st1, writes) ← edge_writes f tbl cbt fuel destination (args.drop 1) st
      match args.head? with
      | none => .error .panicE
      | some arg => do
        let ty := f.value_type arg
        let (st2, ccode) ← translate_value f tbl cbt fuel arg st1
        let norm ← cond_norm opcode ty
        let head := writes ++ branch_negate_pre negate ty ++ ccode ++
          branch_negate_post negate ty ++ norm
        match alist_lookup destination cbt.from_relooper with
        | some mode =>
          match mode with
          | .LoopBreak _ => do
            let (st3, ecode, rem) ← build_from_pos f tbl cbt fuel rest st2
            let (st4, more, rem2) ← build_from_pos f tbl cbt fuel rem st3
            .ok (st4, head ++ [.if_else [] ecode] ++ more, rem2)
          | .MergedBranch =>
            -- `can_branch_to.locally_computed.iter().next().unwrap()`
            match cbt.locally_computed with
            | [] => .error .unwrapE
            | (_, .SetLocal loc) :: _ => do
              let (st3, ecode, rem) ← build_from_pos f tbl cbt fuel rest st2
              let (st4, more, rem2) ← build_from_pos f tbl cbt fuel rem st3
              .ok (st4, head ++ [.if_else [.i32_const i32_max, .local_set loc] ecode] ++ more, rem2)
          | _ => .error .todoE
        | none =>
          match alist_lookup destination cbt.locally_computed with
          | some (.SetLocal label) =>
            if opcode = Opcode.Brz ∨ opcode = Opcode.Brnz then do
              let (st3, ecode, rem) ← build_from_pos f tbl cbt fuel rest st2
              let (st4, more, rem2) ← build_from_pos f tbl cbt fuel rem st3
              .ok (st4, head ++ [.if_else [.i32_const (to_i32 destination), .local_set label] ecode] ++ more, rem2)
            else .error .panicE
          | none => do
            -- neither map knows the edge: nothing is emitted for it
            let (st3, more, rem) ← build_from_pos f tbl cbt fuel rest st2
            .ok (st3, head ++ more, rem)
    | _ => do
      -- "everything else is handled by build_wasm_inst": skipped here,
      -- emitted lazily at use sites via translate_value
      build_from_pos f tbl cbt fuel rest st

end

/-- Transliteration of `block.rs::build_wasm_block`: position the cursor at
the top of the block and run `build_from_pos`, discarding the final cursor
position. -/
def build_wasm_block (f : Func) (tbl : OperandTable) (cbt : CanBranchTo)
    (fuel : Nat) (block : BlockId) (st : TransState) :
    Except Err (TransState × List WasmInstr) :=
  match alist_lookup block f.blocks with
  | none => .error .panicE
  | some bd => do
    let (st', code, _) ← build_from_pos f tbl cbt fuel bd.insts st
    .ok (st', code)

/-! The structured-CFG driver, `lib.rs::compile_structured`. -/

/-- The relooper's shaped tree (`relooper::ShapedBlock`).  A `Multiple` entry
is a handled block: the dispatch ids it handles and its inner shape. -/
inductive ShapedBlock
  | Simple (label : BlockId) (branches : List (BlockId × BranchMode))
      (immediate : Option ShapedBlock) (next : Option ShapedBlock)
  | Loop (loop_id : Nat) (inner : ShapedBlock) (next : Option ShapedBlock)
  | Multiple (handled : List (List Nat × ShapedBlock))

/-- The `locally_computed` map built for a `Simple` with an immediate
`Multiple` child: every arm label maps to `SetLocal` of the fresh dispatch
local.  A non-`Multiple` immediate leaves the map empty. -/
def locally_computed_of (imm : ShapedBlock) (loc : LocalId) :
    List (BlockId × BranchInstr) :=
  match imm with
  | .Multiple handled =>
    (handled.map (fun h => h.1.map (fun l => (l, BranchInstr.SetLocal loc)))).flatten
  | _ => []

mutual

/-- Transliteration of `lib.rs::compile_structured`.  Like the emitters it
takes fuel, decremented on every recursive call. -/
def compile_structured (f : Func) (tbl : OperandTable) :
    Nat → ShapedBlock → Option LocalId → TransState →
    Except Err (TransState × List WasmInstr)
  | 0, _, _, _ => .error .fuel
  | fuel + 1, .Simple slabel branches immediate next, _, st => do
    let (st2, code1) ←
      match immediate with
      | some imm => do
        -- a fresh I32 dispatch local is allocated whenever there is an
        -- immediate child
        let (loc, ml) := st.module_locals.add .I32
        let st0 := { st with module_locals := ml }
        let (st1, bcode) ←
          build_wasm_block f tbl ⟨branches, locally_computed_of imm loc⟩ fuel slabel st0
        let (st2, icode) ← compile_structured f tbl fuel imm (some loc) st1
        Except.ok (st2, bcode ++ icode)
      | none => build_wasm_block f tbl ⟨branches, []⟩ fuel slabel st
    match next with
    | some n => do
      let (st3, ncode) ← compile_structured f tbl fuel n none st2
      .ok (st3, code1 ++ ncode)
    | none => .ok (st2, code1)
  | fuel + 1, .Loop loop_id inner next, _, st => do
    -- `builder.loop_(..)` opens a fresh sequence whose id is recorded in
    -- `loop_to_block` before the inner shape is compiled into it
    let seq := st.next_seq
    let st0 := { st with next_seq := st.next_seq + 1,
                         loop_to_block := alist_insert loop_id seq st.loop_to_block }
    let (st1, icode) ← compile_structured f tbl fuel inner none st0
    let code := [WasmInstr.loop_ seq icode]
    match next with
    | some n => do
      let (st2, ncode) ← compile_structured f tbl fuel n none st1
      .ok (st2, code ++ ncode)
    | none => .ok (st1, code)
  | fuel + 1, .Multiple handled, label, st =>
    match label with
    | none => .error .unwrapE
    | some l => do
      let (st1, code) ← handle_multiple f tbl fuel handled l st
      -- after all arms, `builder.unreachable()`
      .ok (st1, code ++ [.unreachable])

/-- The `for each in &m.handled` loop of the `Multiple` arm. -/
def handle_multiple (f : Func) (tbl : OperandTable) :
    Nat → List (List Nat × ShapedBlock) → LocalId → TransState →
    Except Err (TransState × List WasmInstr)
  | 0, _, _, _ => .error .fuel
  | _ + 1, [], _, st => .ok (st, [])
  | fuel + 1, (labels, inner) :: rest, l, st => do
    let (st1, c1) ← handle_labels f tbl fuel labels inner l st
    let (st2, c2) ← handle_multiple f tbl fuel rest l st1
    .ok (st2, c1 ++ c2)

/-- The `for val in &each.labels` loop of the `Multiple` arm: one guard and
one `if_else` per handled label, the inner shape compiled afresh in each. -/
def handle_labels (f : Func) (tbl : OperandTable) :
    Nat → List Nat → ShapedBlock → LocalId → TransState →
    Except Err (TransState × List WasmInstr)
  | 0, _, _, _, _ => .error .fuel
  | _ + 1, [], _, _, st => .ok (st, [])
  | fuel + 1, val :: vals, inner, l, st => do
    let (st1, icode) ← compile_structured f tbl fuel inner none st
    let (st2, more) ← handle_labels f tbl fuel vals inner l st1
    .ok (st2, [.local_get l, .i32_const (to_i32 val), .binop .I32Eq,
               .if_else icode []] ++ more)

end

/-- The per-function translation driven by `lib.rs::define_function`, from
the point where the relooper has produced the shaped tree: fill the operand
table from the function (lines 185–187), then compile the shaped tree into
the function body builder (lines 225–240).  `define_function` appends nothing
after `compile_structured` returns.  The external `reloop` call itself is out
of scope (the relooper is a black-box dependency), so the shaped tree is a
parameter here. -/
def define_function_body (f : Func) (structured : ShapedBlock) (fuel : Nat) :
    Except Err (TransState × List WasmInstr) := do
  let (tbl, ml) ← OperandTable.fill f ⟨[]⟩
  compile_structured f tbl fuel structured none ⟨ml, [], [], 0⟩

/-! Module-level data handling, `lib.rs::declare_data` /
`declare_anonymous_data` / `define_data`. -/

/-- `cranelift_module::Init`, the initialiser of a data description. -/
inductive DataInit
  | Uninitialized
  | Zeros (size : Nat)
  | Bytes (contents : List Nat)
  deriving DecidableEq

/-- `cranelift_module::Linkage`. -/
inductive Linkage
  | Import
  | Local
  | Preemptible
  | Hidden
  | Export
  deriving DecidableEq

/-- The module state relevant to data items: the declaration counter of
`ModuleDeclarations` (which hands out sequential `DataId`s), the walrus data
arena, and the `data` map from Cranelift ids to walrus ids. -/
structure ModuleDataState where
  decls_next_data : Nat
  walrus_data : List (Nat × List Nat)
  next_walrus_data : Nat
  data : List (Nat × Nat)
  deriving DecidableEq

/-- A fresh `WasmModule` as far as data items are concerned. -/
def ModuleDataState.new : ModuleDataState := ⟨0, [], 0, []⟩

/-- Transliteration of `lib.rs::declare_data`: the name, linkage, writability
and TLS flags are forwarded to `decls.declare_anonymous_data` only; no walrus
data object is created and the `data` map is left untouched. -/
def declare_data (_name : String) (_linkage : Linkage) (_writable : Bool)
    (_tls : Bool) (m : ModuleDataState) : ModuleDataState × Nat :=
  ({ m with decls_next_data := m.decls_next_data + 1 }, m.decls_next_data)

/-- Transliteration of `lib.rs::declare_anonymous_data`: declare the id, add
an empty passive walrus data object, and record the correspondence in the
`data` map. -/
def declare_anonymous_data (_writable : Bool) (_tls : Bool)
    (m : ModuleDataState) : ModuleDataState × Nat :=
  let clif_data_id := m.decls_next_data
  let walrus_data_id := m.next_walrus_data
  ({ m with decls_next_data := m.decls_next_data + 1,
            walrus_data := m.walrus_data ++ [(walrus_data_id, [])],
            next_walrus_data := m.next_walrus_data + 1,
            data := alist_insert clif_data_id walrus_data_id m.data },
   clif_data_id)

/-- Transliteration of `lib.rs::define_data`: `self.data.get(&data).unwrap()`
panics when the id was never entered into the map; otherwise the walrus data
value is replaced according to the initialiser (`Uninitialized` is
`todo!()`). -/
def define_data (data_id : Nat) (init : DataInit) (m : ModuleDataState) :
    Except Err ModuleDataState :=
  match alist_lookup data_id m.data with
  | none => .error .unwrapE
  | some walrus_id =>
    match init with
    | .Uninitialized => .error .todoE
    | .Zeros size =>
      .ok { m with walrus_data := alist_insert walrus_id (List.replicate size 0) m.walrus_data }
    | .Bytes contents =>
      .ok { m with walrus_data := alist_insert walrus_id contents m.walrus_data }

/-! Concrete source functions used as test inputs for the theorems below. -/

/-- An empty `CanBranchTo` context. -/
def cbt_empty : CanBranchTo := ⟨[], []⟩

/-- Two blocks.  Block 0: `v0 = iconst.i32 7; v1 = iconst.i32 9;
jump block1(v0, v1)`.  Block 1 has parameters `v2, v3` and body
`return v3` — parameter `v2` is never used as an instruction operand. -/
def cf1 : Func where
  blocks := [(0, ⟨[], [10, 11, 12]⟩), (1, ⟨[2, 3], [13]⟩)]
  inst_data := fun i =>
    if i = 10 then .UnaryImm .Iconst 7
    else if i = 11 then .UnaryImm .Iconst 9
    else if i = 12 then .Jump [0, 1] 1
    else .MultiAry .Return [3]
  inst_results := fun i => if i = 10 then [0] else if i = 11 then [1] else []
  value_def := fun v =>
    if v = 0 then .Result 10 0
    else if v = 1 then .Result 11 0
    else if v = 2 then .Param 1 0
    else .Param 1 1
  value_type := fun _ => .I32

/-- The operand table `OperandTable::fill` computes for `cf1`: both constants
are rematerialised, and only `v3` — the one parameter of block 1 that occurs
as an operand — has a local (local 0). -/
def tbl1 : OperandTable := ⟨[], [1, 0], [(1, [(3, 0)])]⟩

/-- Two blocks.  Block 0: `v0 = iconst.i32 5; jump block1(v0)`.  Block 1 has
one parameter `v1` that is used by no instruction; its body is `return`. -/
def cf2 : Func where
  blocks := [(0, ⟨[], [10, 11]⟩), (1, ⟨[1], [12]⟩)]
  inst_data := fun i =>
    if i = 10 then .UnaryImm .Iconst 5
    else if i = 11 then .Jump [0] 1
    else .MultiAry .Return []
  inst_results := fun i => if i = 10 then [0] else []
  value_def := fun v => if v = 0 then .Result 10 0 else .Param 1 0
  value_type := fun _ => .I32

/-- The operand table for `cf2`: `v0` is rematerialised and nothing else is
recorded — in particular `block_params` is empty. -/
def tbl2 : OperandTable := ⟨[], [0], []⟩

/-- One block with parameter `v0`: `v1 = iadd v0, v0; return v1, v1` — the
`iadd` result is used twice, so it is a `NormalUse` value. -/
def cf3 : Func where
  blocks := [(0, ⟨[0], [10, 11]⟩)]
  inst_data := fun i =>
    if i = 10 then .Binary .Iadd 0 0
    else .MultiAry .Return [1, 1]
  inst_results := fun i => if i = 10 then [1] else []
  value_def := fun v => if v = 0 then .Param 0 0 else .Result 10 0
  value_type := fun _ => .I32

/-- The operand table for `cf3`: `v1` has two uses; the twice-seen parameter
`v0` ends up mapped to the (second) local 1. -/
def tbl3 : OperandTable := ⟨[(1, 2)], [], [(0, [(0, 1)])]⟩

/-- One block with parameter `v0` (i32): `brz v0, block2; return` where the
relooper classifies the edge to block 2 as a `LoopBreak`. -/
def cf4 : Func where
  blocks := [(0, ⟨[0], [10, 11]⟩)]
  inst_data := fun i =>
    if i = 10 then .Branch .Brz [0] 2
    else .MultiAry .Return []
  inst_results := fun _ => []
  value_def := fun _ => .Param 0 0
  value_type := fun _ => .I32

/-- The operand table for `cf4`: the condition parameter `v0` has local 0. -/
def tbl4 : OperandTable := ⟨[], [], [(0, [(0, 0)])]⟩

/-- The branch context for `cf4`: the edge to block 2 is a loop break. -/
def cbt4 : CanBranchTo := ⟨[(2, .LoopBreak 0)], []⟩

/-- One block: `jump block1` where the relooper classifies the edge as a
`MergedBranch` (fall-through to the following sibling). -/
def cf5 : Func where
  blocks := [(0, ⟨[], [10]⟩)]
  inst_data := fun _ => .Jump [] 1
  inst_results := fun _ => []
  value_def := fun _ => .Param 0 0
  value_type := fun _ => .I32

/-- The branch context for `cf5`: the edge to block 1 is a merged branch and
there is no dispatch local. -/
def cbt5 : CanBranchTo := ⟨[(1, .MergedBranch)], []⟩

/-- One block: `v0 = iconst.i32 42; return v0` (the "constant return" seed
test of the repository). -/
def cf6 : Func where
  blocks := [(0, ⟨[], [10, 11]⟩)]
  inst_data := fun i =>
    if i = 10 then .UnaryImm .Iconst 42
    else .MultiAry .Return [0]
  inst_results := fun i => if i = 10 then [0] else []
  value_def := fun _ => .Result 10 0
  value_type := fun _ => .I32

/-- The shaped tree the relooper produces for the single-block `cf6`: one
`Simple` with no immediate and no next. -/
def shape6 : ShapedBlock := .Simple 0 [] none none

/-- One block with parameter `v0` (i32):
`v1 = icmp_imm ne v0, 5; return v1`. -/
def cf7 : Func where
  blocks := [(0, ⟨[0], [10, 11]⟩)]
  inst_data := fun i =>
    if i = 10 then .IntCompareImm .IcmpImm .NotEqual 0 5
    else .MultiAry .Return [1]
  inst_results := fun i => if i = 10 then [1] else []
  value_def := fun v => if v = 0 then .Param 0 0 else .Result 10 0
  value_type := fun _ => .I32

/-- The operand table for `cf7`: the parameter `v0` has local 0, and the
compare result `v1` has a single use. -/
def tbl7 : OperandTable := ⟨[(1, 1)], [], [(0, [(0, 0)])]⟩

/-- The empty operand table (what `fill` computes for functions without
operands, such as `cf5`). -/
def tbl_empty : OperandTable := ⟨[], [], []⟩

/-! Syntactic predicates on emitted code. -/

mutual

/-- Whether a `br_if` occurs anywhere in an instruction, nested sequences
included. -/
def instr_has_br_if : WasmInstr → Bool
  | .br_if _ => true
  | .if_else t e => list_has_br_if t || list_has_br_if e
  | .loop_ _ b => list_has_br_if b
  | _ => false

/-- Whether a `br_if` occurs anywhere in a sequence. -/
def list_has_br_if : List WasmInstr → Bool
  | [] => false
  | i :: rest => instr_has_br_if i || list_has_br_if rest

end

mutual

/-- Whether an `unreachable` occurs anywhere in an instruction, nested
sequences included. -/
def instr_has_unreach : WasmInstr → Bool
  | .unreachable => true
  | .if_else t e => list_has_unreach t || list_has_unreach e
  | .loop_ _ b => list_has_unreach b
  | _ => false

/-- Whether an `unreachable` occurs anywhere in a sequence. -/
def list_has_unreach : List WasmInstr → Bool
  | [] => false
  | i :: rest => instr_has_unreach i || list_has_unreach rest

end

/-- Presence of a block-parameter binding in the `block_params` table. -/
def bp_mem (b : BlockId) (v : Value)
    (bps : List (BlockId × List (Value × LocalId))) : Prop :=
  ∃ m l, alist_lookup b bps = some m ∧ alist_lookup v m = some l

/-- Whether a shaped tree contains no `Multiple` node anywhere. -/
def shape_no_multi : ShapedBlock → Bool
  | .Simple _ _ imm next =>
    (match imm with
     | none => true
     | some s => shape_no_multi s) &&
    (match next with
     | none => true
     | some s => shape_no_multi s)
  | .Loop _ inner next =>
    shape_no_multi inner &&
    (match next with
     | none => true
     | some s => shape_no_multi s)
  | .Multiple _ => false

theorem list_has_unreach_append (a b : List WasmInstr) :
    list_has_unreach (a ++ b) = (list_has_unreach a || list_has_unreach b) := by
  induction a with
  | nil => simp [list_has_unreach]
  | cons i rest ih => simp [list_has_unreach, ih, Bool.or_assoc]

/-- Reduction of a monadic bind on a successful `Except` computation. -/
theorem ok_bind {α β : Type} (a : α) (g : α → Except Err β) :
    (Except.ok a >>= g) = g a := rfl

/-- Reduction of a monadic bind on a failed `Except` computation. -/
theorem error_bind {α β : Type} (e : Err) (g : α → Except Err β) :
    ((Except.error e : Except Err α) >>= g) = Except.error e := rfl

/-- A bind only succeeds when its first computation does. -/
theorem bind_eq_ok {α β : Type} {x : Except Err α} {g : α → Except Err β}
    {r : β} (h : (x >>= g) = .ok r) : ∃ a, x = .ok a ∧ g a = .ok r := by
  cases x with
  | error e =>
    rw [show (Except.error e >>= g) = Except.error e from rfl] at h
    exact absurd h (by simp)
  | ok a => exact ⟨a, rfl, h⟩

/-! Small lemmas about the association-list operations. -/

theorem alist_lookup_insert {K V : Type} [DecidableEq K] (k k' : K) (v : V)
    (m : List (K × V)) :
    alist_lookup k (alist_insert k' v m) =
      if k' = k then some v else alist_lookup k m := by
  induction m with
  | nil => simp [alist_insert, alist_lookup]
  | cons p rest ih =>
    obtain ⟨a, b⟩ := p
    by_cases hak : a = k'
    · subst hak
      simp [alist_insert, alist_lookup]
      by_cases hk : a = k <;> simp [hk]
    · simp only [alist_insert, if_neg hak]
      by_cases hk : a = k
      · subst hk
        have : ¬(k' = a) := fun h => hak h.symm
        simp [alist_lookup, this, ih]
      · simp [alist_lookup, hk, ih]

theorem set_insert_mem {K : Type} [DecidableEq K] (a b : K) (s : List K) :
    a ∈ set_insert b s ↔ a = b ∨ a ∈ s := by
  unfold set_insert
  by_cases hb : b ∈ s
  · simp only [if_pos hb]
    constructor
    · exact fun h => Or.inr h
    · rintro (rfl | h)
      · exact hb
      · exact h
  · simp [if_neg hb, List.mem_cons]

theorem bp_mem_insert_self (b : BlockId) (v : Value) (l : LocalId)
    (bps : List (BlockId × List (Value × LocalId))) :
    bp_mem b v (bp_insert b v l bps) := by
  induction bps with
  | nil => exact ⟨[(v, l)], l, by simp [bp_insert, alist_lookup], by simp [alist_lookup]⟩
  | cons p rest ih =>
    obtain ⟨b', m⟩ := p
    by_cases hb : b' = b
    · subst hb
      refine ⟨alist_insert v l m, l, by simp [bp_insert, alist_lookup], ?_⟩
      rw [alist_lookup_insert]
      simp
    · obtain ⟨m', l', hm, hl⟩ := ih
      refine ⟨m', l', ?_, hl⟩
      simp [bp_insert, hb, alist_lookup, hm]

theorem bp_mem_insert (b b' : BlockId) (v v' : Value) (l' : LocalId)
    (bps : List (BlockId × List (Value × LocalId)))
    (h : bp_mem b v bps) : bp_mem b v (bp_insert b' v' l' bps) := by
  obtain ⟨m, l, hm, hl⟩ := h
  induction bps with
  | nil => simp [alist_lookup] at hm
  | cons p rest ih =>
    obtain ⟨a, am⟩ := p
    by_cases hab : a = b'
    · subst hab
      simp only [bp_insert, if_pos rfl]
      by_cases hb : a = b
      · subst hb
        simp only [alist_lookup, if_pos rfl] at hm
        cases hm
        by_cases hvv : v' = v
        · subst hvv
          exact ⟨alist_insert v' l' m, l', by simp [alist_lookup], by rw [alist_lookup_insert]; simp⟩
        · refine ⟨alist_insert v' l' m, l, by simp [alist_lookup], ?_⟩
          rw [alist_lookup_insert, if_neg hvv]
          exact hl
      · simp only [alist_lookup, if_neg hb] at hm
        exact ⟨m, l, by simp [alist_lookup, hb, hm], hl⟩
    · by_cases hb : a = b
      · subst hb
        simp only [alist_lookup, if_pos rfl] at hm
        cases hm
        exact ⟨m, l, by simp [bp_insert, hab, alist_lookup], hl⟩
      · simp only [alist_lookup, if_neg hb] at hm
        obtain ⟨m2, l2, hm2, hl2⟩ := ih hm
        exact ⟨m2, l2, by simp [bp_insert, hab, alist_lookup, hb, hm2], hl2⟩

/-! ### C1 -/

/-- C1: FALSIFIED — evaluation of the code at a failing input.  In `cf1` the
successor block 1 has `k = 2` parameters (`v2`, `v3`), but the lowered jump
edge writes exactly **one** parameter local: `block_params` only holds a
local for `v3` (the parameter that occurs as an instruction operand), and the
`args.iter().zip(jump_to.iter())` loop therefore pairs edge argument 0 — the
constant 7 destined for `v2` — with `v3`'s local 0.  The emitted body for the
predecessor is `[i32.const 7, local.set 0]`: one write, not two, and the
wrong argument in `v3`'s local. -/
theorem c1_dead_param_mispairs_eval :
    (alist_lookup 1 cf1.blocks).map BlockData.params = some [2, 3] ∧
    OperandTable.fill cf1 ⟨[]⟩ = .ok (tbl1, ⟨[.I32]⟩) ∧
    alist_lookup 1 tbl1.block_params = some [(3, 0)] ∧
    cf1.inst_data 10 = .UnaryImm .Iconst 7 ∧
    cf1.inst_data 12 = .Jump [0, 1] 1 ∧
    build_wasm_block cf1 tbl1 cbt_empty 20 0 ⟨⟨[.I32]⟩, [], [], 0⟩ =
      .ok (⟨⟨[.I32]⟩, [], [], 0⟩, [.i32_const 7, .local_set 0]) :=
  ⟨rfl, rfl, rfl, rfl, rfl, rfl⟩

/-! ### C2 -/

/-- C2: counterexample.  In `cf2`, block 1 has the parameter `v1`, which is
never an operand of any instruction; after the classifier pass there is no
`block_params` entry for block 1 at all, yet the predecessor's outgoing edge
is lowered (successfully, emitting no parameter write).  So it is not the
case that a target local has been allocated for every block parameter before
a predecessor edge is lowered. -/
theorem c2_counterexample :
    (alist_lookup 1 cf2.blocks).map BlockData.params = some [1] ∧
    cf2.value_def 1 = .Param 1 0 ∧
    OperandTable.fill cf2 ⟨[]⟩ = .ok (tbl2, ⟨[]⟩) ∧
    alist_lookup 1 tbl2.block_params = none ∧
    build_wasm_block cf2 tbl2 cbt_empty 20 0 ⟨⟨[]⟩, [], [], 0⟩ =
      .ok (⟨⟨[]⟩, [], [], 0⟩, []) :=
  ⟨rfl, rfl, rfl, rfl, rfl⟩

/-! ### C4 -/

/-- C4: counterexample.  For the conditional branch of `cf4`, whose
destination edge is classified `LoopBreak`, the emitted code contains no
`br_if` at all: the realisation is an `if_else` with an empty then-arm (the
loop is exited by falling through) and the rest of the block in the
else-arm. -/
theorem c4_counterexample :
    cf4.inst_data 10 = .Branch .Brz [0] 2 ∧
    alist_lookup 2 cbt4.from_relooper = some (.LoopBreak 0) ∧
    build_wasm_block cf4 tbl4 cbt4 20 0 ⟨⟨[.I32]⟩, [], [], 0⟩ =
      .ok (⟨⟨[.I32]⟩, [], [], 0⟩,
        [.i32_const 0, .local_get 0, .binop .I32Sub, .i32_const 0,
         .binop .I32Eq, .if_else [] [.return_]]) ∧
    list_has_br_if
        [.i32_const 0, .local_get 0, .binop .I32Sub, .i32_const 0,
         .binop .I32Eq, .if_else [] [.return_]] = false :=
  ⟨rfl, rfl, rfl, rfl⟩

/-! ### C5 -/

/-- C5: FALSIFIED — evaluation of the code at a failing input.  An
unconditional jump whose destination edge is `MergedBranch` (and which has no
dispatch-local entry) hits the `todo!()` arm of `build_from_pos` and the
translation panics instead of emitting nothing and completing. -/
theorem c5_merged_branch_jump_panics :
    cf5.inst_data 10 = .Jump [] 1 ∧
    alist_lookup 1 cbt5.from_relooper = some .MergedBranch ∧
    alist_lookup 1 cbt5.locally_computed = none ∧
    OperandTable.fill cf5 ⟨[]⟩ = .ok (tbl_empty, ⟨[]⟩) ∧
    build_wasm_block cf5 tbl_empty cbt5 20 0 ⟨⟨[]⟩, [], [], 0⟩ =
      .error .todoE :=
  ⟨rfl, rfl, rfl, rfl, rfl⟩

/-! ### C6 -/

/-- C6: counterexample.  For the constant-return function `cf6` the body
emitted by `define_function` is `[i32.const 42, return]` — the last
instruction of the body is `return`, not `unreachable`; no trailing
`unreachable` is appended after the top-level shape. -/
theorem c6_counterexample :
    define_function_body cf6 shape6 20 =
      .ok (⟨⟨[]⟩, [], [], 0⟩, [.i32_const 42, .return_]) ∧
    [WasmInstr.i32_const 42, .return_].getLast? = some .return_ ∧
    some WasmInstr.return_ ≠ some WasmInstr.unreachable :=
  ⟨rfl, rfl, fun h => by simp only [Option.some_inj] at h; exact WasmInstr.noConfusion h⟩

/-! ### C7 -/

/-- C7: FALSIFIED — evaluation of the code at a failing input.  Lowering
`icmp_imm ne` on an i32 operand reaches `wasm_of_cond(NotEqual, ..)`, which
is `todo!()` in the source, so the translation panics instead of emitting
`i32.ne`.  (The non-immediate `icmp ne` lowering, by contrast, succeeds.) -/
theorem c7_icmp_imm_ne_panics :
    cf7.inst_data 10 = .IntCompareImm .IcmpImm .NotEqual 0 5 ∧
    wasm_of_cond .NotEqual true = none ∧
    build_wasm_inst cf7 tbl7 cbt_empty 20 10 ⟨⟨[.I32]⟩, [], [], 0⟩ =
      .error .todoE :=
  ⟨rfl, rfl, rfl⟩

/-! ### C10 -/

/-- C10: a named data item declared through `declare_data` gets a Cranelift
id but no walrus data object and no `data`-map entry, so a subsequent
`define_data` with that id panics on the `unwrap`; the same sequence through
`declare_anonymous_data` succeeds and sets the data contents. -/
theorem c10_data_lifecycle :
    declare_data "item" .Export true false ModuleDataState.new =
      (⟨1, [], 0, []⟩, 0) ∧
    define_data 0 (.Bytes [1, 2]) ⟨1, [], 0, []⟩ = .error .unwrapE ∧
    declare_anonymous_data true false ModuleDataState.new =
      (⟨1, [(0, [])], 1, [(0, 0)]⟩, 0) ∧
    define_data 0 (.Bytes [1, 2]) ⟨1, [(0, [])], 1, [(0, 0)]⟩ =
      .ok ⟨1, [(0, [1, 2])], 1, [(0, 0)]⟩ ∧
    alist_lookup 0 ([(0, [1, 2])] : List (Nat × List Nat)) = some [1, 2] :=
  ⟨rfl, rfl, rfl, rfl, rfl⟩

/-! ### C3 -/

/-- C3: for an SSA value `v` with `value_uses[v] ≥ 2` that is not in the
rematerialise set, `translate_value` (i) on a later emission — `v` already in
the `locals` map at local `L` — emits exactly `local.get L` and leaves the
state unchanged, and (ii) on the first emission — `v` not yet in `locals` —
lowers the defining instruction, allocates the next fresh module local (id =
the number of locals allocated so far) of `v`'s mapped type, emits
`local.set` then `local.get` on it, and records `v ↦` that local so that
every subsequent emission is case (i). -/
theorem c3_normal_use_locals (f : Func) (tbl : OperandTable) (cbt : CanBranchTo)
    (fuel : Nat) (v : Value) (inst : InstId) (k n : Nat)
    (hdef : f.value_def v = .Result inst k)
    (hremat : v ∉ tbl.rematerialize)
    (huses : alist_lookup v tbl.value_uses = some n)
    (h2 : 2 ≤ n) :
    (∀ (st : TransState) (L : LocalId), alist_lookup v st.locals = some L →
      translate_value f tbl cbt (fuel + 1) v st = .ok (st, [.local_get L])) ∧
    (∀ (st st1 : TransState) (code : List WasmInstr) (wty : ValType),
      alist_lookup v st.locals = none →
      build_wasm_inst f tbl cbt fuel inst st = .ok (st1, code) →
      wasm_of_cranelift (f.value_type v) = some wty →
      translate_value f tbl cbt (fuel + 1) v st =
        .ok ({ st1 with
                module_locals := ⟨st1.module_locals.types ++ [wty]⟩,
                locals := alist_insert v st1.module_locals.types.length st1.locals },
             code ++ [.local_set st1.module_locals.types.length,
                      .local_get st1.module_locals.types.length]) ∧
      alist_lookup v (alist_insert v st1.module_locals.types.length st1.locals) =
        some st1.module_locals.types.length ∧
      (st1.module_locals.types ++ [wty]).get? st1.module_locals.types.length =
        some wty) := by
  have htft : Operand.try_from_table v tbl = some (.NormalUse v) := by
    unfold Operand.try_from_table
    rw [if_neg hremat, huses]
    have hn0 : ¬(n = 0) := by omega
    have hn1 : ¬(n = 1) := by omega
    simp [hn0, hn1]
  constructor
  · intro st L hL
    simp only [translate_value, hdef, htft, hL]
  · intro st st1 code wty hnone hbwi hty
    refine ⟨?_, ?_, ?_⟩
    · simp only [translate_value, hdef, htft, hnone, hbwi, hty, Except.bind,
        ModuleLocals.add]
      rfl
    · rw [alist_lookup_insert]
      simp
    · simp

/-- C3 witness: in `cf3`, the `iadd` result `v1` has two uses; its first
emission lowers the addition, allocates local 2 (the next fresh local, typed
I32) and stores/reloads it, and the second emission from the updated state is
a bare `local.get 2`. -/
theorem c3_witness :
    translate_value cf3 tbl3 cbt_empty 6 1 ⟨⟨[.I32, .I32]⟩, [], [], 0⟩ =
      .ok (⟨⟨[.I32, .I32, .I32]⟩, [(1, 2)], [], 0⟩,
           [.local_get 1, .local_get 1, .binop .I32Add, .local_set 2, .local_get 2]) ∧
    translate_value cf3 tbl3 cbt_empty 6 1 ⟨⟨[.I32, .I32, .I32]⟩, [(1, 2)], [], 0⟩ =
      .ok (⟨⟨[.I32, .I32, .I32]⟩, [(1, 2)], [], 0⟩, [.local_get 2]) := by
  have h := c3_normal_use_locals cf3 tbl3 cbt_empty 5 1 10 0 2 rfl (by decide) rfl (by omega)
  exact ⟨(h.2 ⟨⟨[.I32, .I32]⟩, [], [], 0⟩ ⟨⟨[.I32, .I32]⟩, [], [], 0⟩
            [.local_get 1, .local_get 1, .binop .I32Add] .I32 rfl rfl rfl).1,
         h.1 ⟨⟨[.I32, .I32, .I32]⟩, [(1, 2)], [], 0⟩ 2 rfl⟩

/-- C4 amended: when a conditional branch's destination edge has kind
`LoopBreak`, the lowering sets the negate flag, emits the parameter writes,
the negation prefix, the condition, the negation suffix and the opcode's
normalisation, and then realises the edge as an `if_else` whose then-arm (the
taken side) is **empty** — the enclosing loop is exited by falling through —
and whose else-arm is the lowering of the remainder of the block; no `br_if`
is emitted for the edge. -/
theorem c4_amended (f : Func) (tbl : OperandTable) (cbt : CanBranchTo)
    (fuel : Nat) (inst : InstId) (rest : List InstId) (st st1 st2 st3 st4 : TransState)
    (opcode : Opcode) (args : List Value) (dest : BlockId) (loopid : Nat)
    (c : Value) (writes ccode norm ecode more : List WasmInstr) (rem rem2 : List InstId)
    (hinst : f.inst_data inst = .Branch opcode args dest)
    (hmode : alist_lookup dest cbt.from_relooper = some (.LoopBreak loopid))
    (hc : args.head? = some c)
    (hw : edge_writes f tbl cbt fuel dest (args.drop 1) st = .ok (st1, writes))
    (htv : translate_value f tbl cbt fuel c st1 = .ok (st2, ccode))
    (hnorm : cond_norm opcode (f.value_type c) = .ok norm)
    (he : build_from_pos f tbl cbt fuel rest st2 = .ok (st3, ecode, rem))
    (hm : build_from_pos f tbl cbt fuel rem st3 = .ok (st4, more, rem2)) :
    build_from_pos f tbl cbt (fuel + 1) (inst :: rest) st =
      .ok (st4, writes ++ branch_negate_pre true (f.value_type c) ++ ccode ++
        branch_negate_post true (f.value_type c) ++ norm ++
        [.if_else [] ecode] ++ more, rem2) ∧
    branch_negate cbt dest = true ∧
    list_has_br_if [WasmInstr.if_else [] ecode] = list_has_br_if ecode := by
  have hneg : branch_negate cbt dest = true := by
    unfold branch_negate
    rw [hmode]
  refine ⟨?_, hneg, ?_⟩
  · simp only [build_from_pos, hinst, hneg, hw, hc, htv, hnorm, hmode, he, hm, ok_bind]
  · simp [list_has_br_if, instr_has_br_if]

/-- C4 amended, witness: the loop-break conditional branch of `cf4` is
realised as an `if_else` with empty then-arm, with the negation and
normalisation in front, and the realisation contains no `br_if`. -/
theorem c4_amended_witness :
    build_from_pos cf4 tbl4 cbt4 20 [10, 11] ⟨⟨[.I32]⟩, [], [], 0⟩ =
      .ok (⟨⟨[.I32]⟩, [], [], 0⟩,
        [] ++ branch_negate_pre true (cf4.value_type 0) ++ [.local_get 0] ++
          branch_negate_post true (cf4.value_type 0) ++
          [.i32_const 0, .binop .I32Eq] ++ [.if_else [] [.return_]] ++ [], []) ∧
    branch_negate cbt4 2 = true ∧
    list_has_br_if [WasmInstr.if_else [] [.return_]] = list_has_br_if [.return_] :=
  c4_amended cf4 tbl4 cbt4 19 10 [11] ⟨⟨[.I32]⟩, [], [], 0⟩ ⟨⟨[.I32]⟩, [], [], 0⟩
    ⟨⟨[.I32]⟩, [], [], 0⟩ ⟨⟨[.I32]⟩, [], [], 0⟩ ⟨⟨[.I32]⟩, [], [], 0⟩
    .Brz [0] 2 0 0 [] [.local_get 0] [.i32_const 0, .binop .I32Eq] [.return_] []
    [] [] rfl rfl rfl rfl rfl rfl rfl rfl

/-! ### C8 -/

theorem cond_norm_bool (opcode : Opcode) (ty : ClifType)
    (hb : ty.is_bool = true) : cond_norm opcode ty = .ok [] := by
  unfold cond_norm
  by_cases hz : opcode = Opcode.Brz <;> by_cases hn : opcode = Opcode.Brnz <;>
    simp [hz, hn, hb, ok_bind]

theorem cond_norm_brz_32 (ty : ClifType) (hb : ty.is_bool = false)
    (h32 : ty.bits = 32) :
    cond_norm .Brz ty = .ok [.i32_const 0, .binop .I32Eq] := by
  unfold cond_norm
  simp [hb, h32, ok_bind]

theorem cond_norm_brz_64 (ty : ClifType) (hb : ty.is_bool = false)
    (h64 : ty.bits = 64) :
    cond_norm .Brz ty = .ok [.i64_const 0, .binop .I64Eq] := by
  unfold cond_norm
  simp [hb, h64, ok_bind]

theorem cond_norm_brnz_32 (ty : ClifType) (hb : ty.is_bool = false)
    (h32 : ty.bits = 32) :
    cond_norm .Brnz ty = .ok [.i32_const 0, .binop .I32Ne] := by
  unfold cond_norm
  simp [hb, h32, ok_bind]

theorem cond_norm_brnz_64 (ty : ClifType) (hb : ty.is_bool = false)
    (h64 : ty.bits = 64) :
    cond_norm .Brnz ty = .ok [.i64_const 0, .binop .I64Ne] := by
  unfold cond_norm
  simp [hb, h64, ok_bind]

/-- C8: lowering a conditional branch pushes the parameter writes, the
(possible) negation prefix, the condition, the (possible) negation suffix and
then the normalisation sequence, before anything realising the edge; the
normalisation is `iN.const 0; iN.eq` for `Brz` and `iN.const 0; iN.ne` for
`Brnz` on a non-boolean integer of width `N ∈ {32, 64}`, and is empty for a
boolean-typed condition. -/
theorem c8_normalisation
    (f : Func) (tbl : OperandTable) (cbt : CanBranchTo) (fuel : Nat)
    (inst : InstId) (rest : List InstId) (st st1 st2 st' : TransState)
    (opcode : Opcode) (args : List Value) (dest : BlockId) (c : Value)
    (writes ccode code : List WasmInstr) (rem : List InstId)
    (hinst : f.inst_data inst = .Branch opcode args dest)
    (hc : args.head? = some c)
    (hw : edge_writes f tbl cbt fuel dest (args.drop 1) st = .ok (st1, writes))
    (htv : translate_value f tbl cbt fuel c st1 = .ok (st2, ccode))
    (hbuild : build_from_pos f tbl cbt (fuel + 1) (inst :: rest) st =
      .ok (st', code, rem)) :
    ∃ norm tail,
      cond_norm opcode (f.value_type c) = .ok norm ∧
      code = writes ++
        branch_negate_pre (branch_negate cbt dest) (f.value_type c) ++ ccode ++
        branch_negate_post (branch_negate cbt dest) (f.value_type c) ++
        norm ++ tail ∧
      ((f.value_type c).is_bool = true → norm = []) ∧
      ((f.value_type c).is_bool = false → (f.value_type c).bits = 32 →
        opcode = .Brz → norm = [.i32_const 0, .binop .I32Eq]) ∧
      ((f.value_type c).is_bool = false → (f.value_type c).bits = 64 →
        opcode = .Brz → norm = [.i64_const 0, .binop .I64Eq]) ∧
      ((f.value_type c).is_bool = false → (f.value_type c).bits = 32 →
        opcode = .Brnz → norm = [.i32_const 0, .binop .I32Ne]) ∧
      ((f.value_type c).is_bool = false → (f.value_type c).bits = 64 →
        opcode = .Brnz → norm = [.i64_const 0, .binop .I64Ne]) := by
  rcases hcn : cond_norm opcode (f.value_type c) with e | norm
  · simp only [build_from_pos, hinst, hw, hc, htv, hcn, ok_bind, error_bind] at hbuild
    exact Except.noConfusion hbuild
  have hfacts :
      ((f.value_type c).is_bool = true → norm = []) ∧
      ((f.value_type c).is_bool = false → (f.value_type c).bits = 32 →
        opcode = .Brz → norm = [.i32_const 0, .binop .I32Eq]) ∧
      ((f.value_type c).is_bool = false → (f.value_type c).bits = 64 →
        opcode = .Brz → norm = [.i64_const 0, .binop .I64Eq]) ∧
      ((f.value_type c).is_bool = false → (f.value_type c).bits = 32 →
        opcode = .Brnz → norm = [.i32_const 0, .binop .I32Ne]) ∧
      ((f.value_type c).is_bool = false → (f.value_type c).bits = 64 →
        opcode = .Brnz → norm = [.i64_const 0, .binop .I64Ne]) := by
    refine ⟨?_, ?_, ?_, ?_, ?_⟩
    · intro hb
      rw [cond_norm_bool opcode _ hb] at hcn
      exact (Except.ok.inj hcn).symm
    · intro hb h32 hz
      subst hz
      rw [cond_norm_brz_32 _ hb h32] at hcn
      exact (Except.ok.inj hcn).symm
    · intro hb h64 hz
      subst hz
      rw [cond_norm_brz_64 _ hb h64] at hcn
      exact (Except.ok.inj hcn).symm
    · intro hb h32 hz
      subst hz
      rw [cond_norm_brnz_32 _ hb h32] at hcn
      exact (Except.ok.inj hcn).symm
    · intro hb h64 hz
      subst hz
      rw [cond_norm_brnz_64 _ hb h64] at hcn
      exact (Except.ok.inj hcn).symm
  rcases hlk : alist_lookup dest cbt.from_relooper with _ | mode
  · rcases hlc : alist_lookup dest cbt.locally_computed with _ | bi
    · simp only [build_from_pos, hinst, hw, hc, htv, hcn, hlk, hlc, ok_bind] at hbuild
      obtain ⟨⟨st3, more, rem'⟩, hmore, hbuild⟩ := bind_eq_ok hbuild
      simp only [Except.ok.injEq, Prod.mk.injEq] at hbuild
      obtain ⟨h1, h2, h3⟩ := hbuild
      exact ⟨norm, more, rfl, h2.symm, hfacts⟩
    · obtain ⟨l⟩ := bi
      by_cases hop : opcode = Opcode.Brz ∨ opcode = Opcode.Brnz
      · simp only [build_from_pos, hinst, hw, hc, htv, hcn, hlk, hlc, ok_bind] at hbuild
        rw [if_pos hop] at hbuild
        obtain ⟨⟨st3, ecode, rem1⟩, he, hbuild⟩ := bind_eq_ok hbuild
        obtain ⟨⟨st4, more, rem2⟩, hmore, hbuild⟩ := bind_eq_ok hbuild
        simp only [Except.ok.injEq, Prod.mk.injEq] at hbuild
        obtain ⟨h1, h2, h3⟩ := hbuild
        refine ⟨norm,
          [.if_else [.i32_const (to_i32 dest), .local_set l] ecode] ++ more,
          rfl, ?_, hfacts⟩
        rw [← h2]
        exact List.append_assoc _ _ _
      · simp only [build_from_pos, hinst, hw, hc, htv, hcn, hlk, hlc, ok_bind] at hbuild
        rw [if_neg hop] at hbuild
        exact Except.noConfusion hbuild
  · cases mode with
      | LoopBreak id =>
        simp only [build_from_pos, hinst, hw, hc, htv, hcn, hlk, ok_bind] at hbuild
        obtain ⟨⟨st3, ecode, rem1⟩, he, hbuild⟩ := bind_eq_ok hbuild
        obtain ⟨⟨st4, more, rem2⟩, hmore, hbuild⟩ := bind_eq_ok hbuild
        simp only [Except.ok.injEq, Prod.mk.injEq] at hbuild
        obtain ⟨h1, h2, h3⟩ := hbuild
        refine ⟨norm, [.if_else [] ecode] ++ more, rfl, ?_, hfacts⟩
        rw [← h2]
        exact List.append_assoc _ _ _
      | MergedBranch =>
        rcases hlcl : cbt.locally_computed with _ | ⟨⟨b0, bi0⟩, lcrest⟩
        · simp only [build_from_pos, hinst, hw, hc, htv, hcn, hlk, hlcl, ok_bind] at hbuild
          exact Except.noConfusion hbuild
        · obtain ⟨l⟩ := bi0
          simp only [build_from_pos, hinst, hw, hc, htv, hcn, hlk, hlcl, ok_bind] at hbuild
          obtain ⟨⟨st3, ecode, rem1⟩, he, hbuild⟩ := bind_eq_ok hbuild
          obtain ⟨⟨st4, more, rem2⟩, hmore, hbuild⟩ := bind_eq_ok hbuild
          simp only [Except.ok.injEq, Prod.mk.injEq] at hbuild
          obtain ⟨h1, h2, h3⟩ := hbuild
          refine ⟨norm, [.if_else [.i32_const i32_max, .local_set l] ecode] ++ more,
            rfl, ?_, hfacts⟩
          rw [← h2]
          exact List.append_assoc _ _ _
      | LoopBreakIntoMulti id =>
        simp only [build_from_pos, hinst, hw, hc, htv, hcn, hlk, ok_bind] at hbuild
        exact Except.noConfusion hbuild
      | LoopContinue id =>
        simp only [build_from_pos, hinst, hw, hc, htv, hcn, hlk, ok_bind] at hbuild
        exact Except.noConfusion hbuild
      | LoopContinueIntoMulti id =>
        simp only [build_from_pos, hinst, hw, hc, htv, hcn, hlk, ok_bind] at hbuild
        exact Except.noConfusion hbuild
      | MergedBranchIntoMulti =>
        simp only [build_from_pos, hinst, hw, hc, htv, hcn, hlk, ok_bind] at hbuild
        exact Except.noConfusion hbuild
      | SetLabelAndBreak =>
        simp only [build_from_pos, hinst, hw, hc, htv, hcn, hlk, ok_bind] at hbuild
        exact Except.noConfusion hbuild

/-- C8 witness: for the `brz` of `cf4` on a non-boolean i32 condition, the
emitted code decomposes as writes, negation prefix, condition, negation
suffix, the normalisation `i32.const 0; i32.eq`, and the realisation tail. -/
theorem c8_normalisation_witness :
    ∃ norm tail,
      cond_norm .Brz (cf4.value_type 0) = .ok norm ∧
      ([.i32_const 0, .local_get 0, .binop .I32Sub, .i32_const 0,
        .binop .I32Eq, .if_else [] [.return_]] : List WasmInstr) = [] ++
        branch_negate_pre (branch_negate cbt4 2) (cf4.value_type 0) ++
        [.local_get 0] ++
        branch_negate_post (branch_negate cbt4 2) (cf4.value_type 0) ++
        norm ++ tail ∧
      ((cf4.value_type 0).is_bool = true → norm = []) ∧
      ((cf4.value_type 0).is_bool = false → (cf4.value_type 0).bits = 32 →
        Opcode.Brz = .Brz → norm = [.i32_const 0, .binop .I32Eq]) ∧
      ((cf4.value_type 0).is_bool = false → (cf4.value_type 0).bits = 64 →
        Opcode.Brz = .Brz → norm = [.i64_const 0, .binop .I64Eq]) ∧
      ((cf4.value_type 0).is_bool = false → (cf4.value_type 0).bits = 32 →
        Opcode.Brz = .Brnz → norm = [.i32_const 0, .binop .I32Ne]) ∧
      ((cf4.value_type 0).is_bool = false → (cf4.value_type 0).bits = 64 →
        Opcode.Brz = .Brnz → norm = [.i64_const 0, .binop .I64Ne]) :=
  c8_normalisation cf4 tbl4 cbt4 19 10 [11] ⟨⟨[.I32]⟩, [], [], 0⟩
    ⟨⟨[.I32]⟩, [], [], 0⟩ ⟨⟨[.I32]⟩, [], [], 0⟩ ⟨⟨[.I32]⟩, [], [], 0⟩
    .Brz [0] 2 0 [] [.local_get 0]
    [.i32_const 0, .local_get 0, .binop .I32Sub, .i32_const 0,
     .binop .I32Eq, .if_else [] [.return_]] []
    rfl rfl rfl rfl rfl

/-! Facts about the classifier pass (`OperandTable::fill`). -/

/-- What one step of the fill loop does to the three tables, split by how the
processed occurrence is defined. -/
theorem fill_step_spec (f : Func) (st : FillState) (w : Value) (st1 : FillState)
    (h : fill_step f st w = .ok st1) :
    (∀ i k, f.value_def w = .Result i k →
      def_rematerialises (f.inst_data i) = true →
      st1.value_uses = st.value_uses ∧
      st1.rematerialize = set_insert w st.rematerialize ∧
      st1.block_params = st.block_params) ∧
    (∀ i k, f.value_def w = .Result i k →
      def_rematerialises (f.inst_data i) = false →
      st1.value_uses = bump_use w st.value_uses ∧
      st1.rematerialize = st.rematerialize ∧
      st1.block_params = st.block_params) ∧
    (∀ b k, f.value_def w = .Param b k →
      st1.value_uses = st.value_uses ∧
      st1.rematerialize = st.rematerialize ∧
      ∃ l, st1.block_params = bp_insert b w l st.block_params) := by
  unfold fill_step at h
  rcases hd : f.value_def w with ⟨i, k⟩ | ⟨b, k⟩ <;> simp only [hd] at h
  · cases hrb : def_rematerialises (f.inst_data i) with
    | true =>
      rw [if_pos hrb] at h
      obtain rfl := Except.ok.inj h
      refine ⟨?_, ?_, ?_⟩
      · intro i' k' hd' _
        cases hd'
        exact ⟨rfl, rfl, rfl⟩
      · intro i' k' hd' hr'
        cases hd'
        rw [hrb] at hr'
        exact Bool.noConfusion hr'
      · intro b' k' hd'
        exact ValueDef.noConfusion hd'
    | false =>
      have hnr : ¬(def_rematerialises (f.inst_data i) = true) := by simp [hrb]
      rw [if_neg hnr] at h
      obtain rfl := Except.ok.inj h
      refine ⟨?_, ?_, ?_⟩
      · intro i' k' hd' hr'
        cases hd'
        rw [hrb] at hr'
        exact Bool.noConfusion hr'
      · intro i' k' hd' _
        cases hd'
        exact ⟨rfl, rfl, rfl⟩
      · intro b' k' hd'
        exact ValueDef.noConfusion hd'
  · rcases hw2 : wasm_of_cranelift (f.value_type w) with _ | ty <;> simp only [hw2] at h
    · exact Except.noConfusion h
    · simp only [ModuleLocals.add] at h
      obtain rfl := Except.ok.inj h
      refine ⟨?_, ?_, ?_⟩
      · intro i' k' hd' _
        exact ValueDef.noConfusion hd'
      · intro i' k' hd' _
        exact ValueDef.noConfusion hd'
      · intro b' k' hd'
        cases hd'
        exact ⟨rfl, rfl, st.module_locals.types.length, rfl⟩

/-- Values in `rematerialize` got there from an occurrence whose defining
instruction is an integer constant. -/
theorem fill_go_remat_source (f : Func) :
    ∀ (todo : List Value) (st st' : FillState),
      fill_go f todo st = .ok st' → ∀ v, v ∈ st'.rematerialize →
      v ∈ st.rematerialize ∨
        ∃ i k, f.value_def v = .Result i k ∧
          def_rematerialises (f.inst_data i) = true := by
  intro todo
  induction todo with
  | nil =>
    intro st st' h v hv
    cases Except.ok.inj h
    exact Or.inl hv
  | cons w rest ih =>
    intro st st' h v hv
    simp only [fill_go] at h
    obtain ⟨st1, hstep, hrest⟩ := bind_eq_ok h
    rcases ih st1 st' hrest v hv with h1 | h2
    · obtain ⟨hsr, hsn, hsp⟩ := fill_step_spec f st w st1 hstep
      rcases hd : f.value_def w with ⟨i, k⟩ | ⟨b, k⟩
      · cases hrb : def_rematerialises (f.inst_data i) with
        | true =>
          obtain ⟨_, hre, _⟩ := hsr i k hd hrb
          rw [hre] at h1
          rcases (set_insert_mem v w st.rematerialize).mp h1 with rfl | hmem
          · exact Or.inr ⟨i, k, hd, hrb⟩
          · exact Or.inl hmem
        | false =>
          obtain ⟨_, hre, _⟩ := hsn i k hd hrb
          rw [hre] at h1
          exact Or.inl h1
      · obtain ⟨_, hre, _⟩ := hsp b k hd
        rw [hre] at h1
        exact Or.inl h1
    · exact Or.inr h2

/-- Membership in `rematerialize` is never lost during the pass. -/
theorem fill_go_remat_mono (f : Func) :
    ∀ (todo : List Value) (st st' : FillState),
      fill_go f todo st = .ok st' → ∀ v, v ∈ st.rematerialize →
      v ∈ st'.rematerialize := by
  intro todo
  induction todo with
  | nil =>
    intro st st' h v hv
    cases Except.ok.inj h
    exact hv
  | cons w rest ih =>
    intro st st' h v hv
    simp only [fill_go] at h
    obtain ⟨st1, hstep, hrest⟩ := bind_eq_ok h
    obtain ⟨hsr, hsn, hsp⟩ := fill_step_spec f st w st1 hstep
    rcases hd : f.value_def w with ⟨i, k⟩ | ⟨b, k⟩
    · cases hrb : def_rematerialises (f.inst_data i) with
      | true =>
        obtain ⟨_, hre, _⟩ := hsr i k hd hrb
        exact ih st1 st' hrest v (by
          rw [hre]
          exact (set_insert_mem v w st.rematerialize).mpr (Or.inr hv))
      | false =>
        obtain ⟨_, hre, _⟩ := hsn i k hd hrb
        exact ih st1 st' hrest v (by rw [hre]; exact hv)
    · obtain ⟨_, hre, _⟩ := hsp b k hd
      exact ih st1 st' hrest v (by rw [hre]; exact hv)

/-- An occurrence whose defining instruction is an integer constant ends up
in `rematerialize`. -/
theorem fill_go_remat_adds (f : Func) :
    ∀ (todo : List Value) (st st' : FillState),
      fill_go f todo st = .ok st' → ∀ v i k, v ∈ todo →
      f.value_def v = .Result i k →
      def_rematerialises (f.inst_data i) = true →
      v ∈ st'.rematerialize := by
  intro todo
  induction todo with
  | nil =>
    intro st st' _ v i k hv
    exact absurd hv (List.not_mem_nil v)
  | cons w rest ih =>
    intro st st' h v i k hv hd hrb
    simp only [fill_go] at h
    obtain ⟨st1, hstep, hrest⟩ := bind_eq_ok h
    rcases List.mem_cons.mp hv with rfl | hmem
    · obtain ⟨hsr, _, _⟩ := fill_step_spec f st v st1 hstep
      obtain ⟨_, hre, _⟩ := hsr i k hd hrb
      refine fill_go_remat_mono f rest st1 st' hrest v ?_
      rw [hre]
      exact (set_insert_mem v v st.rematerialize).mpr (Or.inl rfl)
    · exact ih st1 st' hrest v i k hmem hd hrb

/-- The use count of a value whose definition is an integer constant is never
touched by the pass. -/
theorem fill_go_uses_unchanged_remat (f : Func) :
    ∀ (todo : List Value) (st st' : FillState),
      fill_go f todo st = .ok st' → ∀ v i k,
      f.value_def v = .Result i k →
      def_rematerialises (f.inst_data i) = true →
      alist_lookup v st'.value_uses = alist_lookup v st.value_uses := by
  intro todo
  induction todo with
  | nil =>
    intro st st' h v i k _ _
    cases Except.ok.inj h
    rfl
  | cons w rest ih =>
    intro st st' h v i k hd hrb
    simp only [fill_go] at h
    obtain ⟨st1, hstep, hrest⟩ := bind_eq_ok h
    obtain ⟨hsr, hsn, hsp⟩ := fill_step_spec f st w st1 hstep
    have step_eq : alist_lookup v st1.value_uses = alist_lookup v st.value_uses := by
      rcases hd2 : f.value_def w with ⟨i2, k2⟩ | ⟨b2, k2⟩
      · cases hrb2 : def_rematerialises (f.inst_data i2) with
        | true =>
          obtain ⟨hu, _, _⟩ := hsr i2 k2 hd2 hrb2
          rw [hu]
        | false =>
          obtain ⟨hu, _, _⟩ := hsn i2 k2 hd2 hrb2
          have hwv : w ≠ v := by
            intro hwv
            subst hwv
            rw [hd] at hd2
            cases hd2
            rw [hrb] at hrb2
            exact Bool.noConfusion hrb2
          rw [hu]
          unfold bump_use
          rw [alist_lookup_insert]
          exact if_neg hwv
      · obtain ⟨hu, _, _⟩ := hsp b2 k2 hd2
        rw [hu]
    rw [ih st1 st' hrest v i k hd hrb, step_eq]

/-- A `block_params` binding is never lost during the pass. -/
theorem fill_go_bp_mono (f : Func) :
    ∀ (todo : List Value) (st st' : FillState),
      fill_go f todo st = .ok st' → ∀ b v, bp_mem b v st.block_params →
      bp_mem b v st'.block_params := by
  intro todo
  induction todo with
  | nil =>
    intro st st' h b v hv
    cases Except.ok.inj h
    exact hv
  | cons w rest ih =>
    intro st st' h b v hv
    simp only [fill_go] at h
    obtain ⟨st1, hstep, hrest⟩ := bind_eq_ok h
    obtain ⟨hsr, hsn, hsp⟩ := fill_step_spec f st w st1 hstep
    rcases hd : f.value_def w with ⟨i, k⟩ | ⟨b2, k⟩
    · cases hrb : def_rematerialises (f.inst_data i) with
      | true =>
        obtain ⟨_, _, hbp⟩ := hsr i k hd hrb
        exact ih st1 st' hrest b v (by rw [hbp]; exact hv)
      | false =>
        obtain ⟨_, _, hbp⟩ := hsn i k hd hrb
        exact ih st1 st' hrest b v (by rw [hbp]; exact hv)
    · obtain ⟨_, _, l, hbp⟩ := hsp b2 k hd
      exact ih st1 st' hrest b v (by rw [hbp]; exact bp_mem_insert b b2 v w l _ hv)

/-- An occurrence that is a block parameter gets a local recorded in
`block_params`. -/
theorem fill_go_bp_adds (f : Func) :
    ∀ (todo : List Value) (st st' : FillState),
      fill_go f todo st = .ok st' → ∀ v b k, v ∈ todo →
      f.value_def v = .Param b k →
      bp_mem b v st'.block_params := by
  intro todo
  induction todo with
  | nil =>
    intro st st' _ v b k hv
    exact absurd hv (List.not_mem_nil v)
  | cons w rest ih =>
    intro st st' h v b k hv hd
    simp only [fill_go] at h
    obtain ⟨st1, hstep, hrest⟩ := bind_eq_ok h
    rcases List.mem_cons.mp hv with rfl | hmem
    · obtain ⟨_, _, hsp⟩ := fill_step_spec f st v st1 hstep
      obtain ⟨_, _, l, hbp⟩ := hsp b k hd
      refine fill_go_bp_mono f rest st1 st' hrest b v ?_
      rw [hbp]
      exact bp_mem_insert_self b v l st.block_params
    · exact ih st1 st' hrest v b k hmem hd

/-- C2 amended: every block parameter that occurs as an operand of at least
one instruction has a target local recorded in `block_params` once
`OperandTable::fill` has run — and `define_function` runs `fill` to
completion before any lowering starts, so the local exists before any
predecessor's outgoing edge is lowered.  (Block parameters with no operand
occurrence get no local; see the counterexample.) -/
theorem c2_amended (f : Func) (ml0 ml' : ModuleLocals) (tbl : OperandTable)
    (v : Value) (b : BlockId) (idx : Nat)
    (hdef : f.value_def v = .Param b idx)
    (hocc : v ∈ f.operand_occurrences)
    (hfill : OperandTable.fill f ml0 = .ok (tbl, ml')) :
    bp_mem b v tbl.block_params := by
  unfold OperandTable.fill at hfill
  obtain ⟨stf, hgo, hmk⟩ := bind_eq_ok hfill
  have h2 := Except.ok.inj hmk
  have htbl : tbl.block_params = stf.block_params :=
    (congrArg (fun p => p.1.block_params) h2).symm
  rw [htbl]
  exact fill_go_bp_adds f f.operand_occurrences ⟨[], [], [], ml0⟩ stf hgo v b idx
    hocc hdef

/-- C2 amended, witness: in `cf3` the block parameter `v0` is used as an
operand, and after `fill` it has a local recorded in `block_params`. -/
theorem c2_amended_witness : bp_mem 0 0 tbl3.block_params :=
  c2_amended cf3 ⟨[]⟩ ⟨[.I32, .I32]⟩ tbl3 0 0 0 rfl (by decide) rfl

/-! ### C9 -/

/-- C9: after the classifier pass, an operand value defined by an
integer-constant instruction is in `rematerialize`, its use count was never
incremented (no `value_uses` entry exists), and it classifies as
`Rematerialise`; any other instruction-defined value is not in
`rematerialize` and classifies as `SingleUse` when its accumulated use count
is at most 1 and as `NormalUse` when it is at least 2. -/
theorem c9_classification (f : Func) (ml0 ml' : ModuleLocals) (tbl : OperandTable)
    (v : Value) (inst : InstId) (k : Nat)
    (hfill : OperandTable.fill f ml0 = .ok (tbl, ml'))
    (hdef : f.value_def v = .Result inst k) :
    (def_rematerialises (f.inst_data inst) = true → v ∈ f.operand_occurrences →
      v ∈ tbl.rematerialize ∧ alist_lookup v tbl.value_uses = none ∧
      Operand.try_from_table v tbl = some (.Rematerialise v)) ∧
    (def_rematerialises (f.inst_data inst) = false →
      v ∉ tbl.rematerialize ∧ ∀ n,
      alist_lookup v tbl.value_uses = some n →
      (n ≤ 1 → Operand.try_from_table v tbl = some (.SingleUse v)) ∧
      (2 ≤ n → Operand.try_from_table v tbl = some (.NormalUse v))) := by
  unfold OperandTable.fill at hfill
  obtain ⟨stf, hgo, hmk⟩ := bind_eq_ok hfill
  have h2 := Except.ok.inj hmk
  have htblu : tbl.value_uses = stf.value_uses :=
    (congrArg (fun p => p.1.value_uses) h2).symm
  have htblr : tbl.rematerialize = stf.rematerialize :=
    (congrArg (fun p => p.1.rematerialize) h2).symm
  constructor
  · intro hrb hocc
    have hmem : v ∈ stf.rematerialize :=
      fill_go_remat_adds f _ _ _ hgo v inst k hocc hdef hrb
    have huse : alist_lookup v stf.value_uses =
        alist_lookup v (FillState.mk [] [] [] ml0).value_uses :=
      fill_go_uses_unchanged_remat f _ _ _ hgo v inst k hdef hrb
    have hvm : v ∈ tbl.rematerialize := by rw [htblr]; exact hmem
    exact ⟨hvm, by rw [htblu, huse]; rfl,
      by simp [Operand.try_from_table, hvm]⟩
  · intro hrb
    have hnot : v ∉ stf.rematerialize := by
      intro hmem
      rcases fill_go_remat_source f _ _ _ hgo v hmem with h0 | ⟨i, k2, hdef2, hr2⟩
      · exact absurd h0 (List.not_mem_nil v)
      · rw [hdef] at hdef2
        cases hdef2
        rw [hrb] at hr2
        exact Bool.noConfusion hr2
    have hnottbl : v ∉ tbl.rematerialize := by rw [htblr]; exact hnot
    refine ⟨hnottbl, ?_⟩
    intro n hn
    constructor
    · intro h1
      have : n = 0 ∨ n = 1 := by omega
      rcases this with rfl | rfl <;> simp [Operand.try_from_table, hnottbl, hn]
    · intro h1
      have h0 : ¬(n = 0) := by omega
      have h1' : ¬(n = 1) := by omega
      simp [Operand.try_from_table, hnottbl, hn, h0, h1']

/-- C9 witness: in `cf1` the constant-defined value `v0` occurs as an
operand; it is in `rematerialize`, has no use-count entry, and classifies as
`Rematerialise`. -/
theorem c9_witness :
    (0 : Value) ∈ cf1.operand_occurrences ∧
    ((0 : Value) ∈ tbl1.rematerialize ∧
     alist_lookup 0 tbl1.value_uses = none ∧
     Operand.try_from_table 0 tbl1 = some (.Rematerialise 0)) := by
  have h := (c9_classification cf1 ⟨[]⟩ ⟨[.I32]⟩ tbl1 0 10 0 rfl rfl).1 rfl (by decide)
  exact ⟨by decide, h⟩

/-! The instruction emitters never emit `unreachable` (it appears only when
the structured driver closes a `Multiple` shape). -/

/-- Whatever normalisation `cond_norm` produces contains no `unreachable`. -/
theorem cond_norm_no_unreach (op : Opcode) (ty : ClifType) (norm : List WasmInstr)
    (h : cond_norm op ty = .ok norm) : list_has_unreach norm = false := by
  unfold cond_norm at h
  by_cases hz : op = Opcode.Brz
  · subst hz
    by_cases hb : ty.is_bool = true <;> by_cases h64 : ty.bits = 64 <;>
      by_cases h32 : ty.bits ≤ 32 <;>
      simp [hb, h64, h32, ok_bind, error_bind] at h <;>
      first
      | (rw [← h]; rfl)
      | (rw [h]; rfl)
  · by_cases hn : op = Opcode.Brnz
    · subst hn
      by_cases hb : ty.is_bool = true <;> by_cases h64 : ty.bits = 64 <;>
        by_cases h32 : ty.bits ≤ 32 <;>
        simp [hb, h64, h32, ok_bind, error_bind] at h <;>
        first
        | (rw [← h]; rfl)
        | (rw [h]; rfl)
    · simp [hz, hn, ok_bind] at h
      subst h
      rfl

theorem emitters_no_unreach (f : Func) (tbl : OperandTable) (cbt : CanBranchTo) :
    ∀ fuel : Nat,
      (∀ v st st' c, translate_value f tbl cbt fuel v st = .ok (st', c) →
        list_has_unreach c = false) ∧
      (∀ ps st st' c, emit_jump_args f tbl cbt fuel ps st = .ok (st', c) →
        list_has_unreach c = false) ∧
      (∀ i st st' c, build_wasm_inst f tbl cbt fuel i st = .ok (st', c) →
        list_has_unreach c = false) ∧
      (∀ d av st st' c, edge_writes f tbl cbt fuel d av st = .ok (st', c) →
        list_has_unreach c = false) ∧
      (∀ vs st st' c, emit_values f tbl cbt fuel vs st = .ok (st', c) →
        list_has_unreach c = false) ∧
      (∀ insts st st' c rm,
        build_from_pos f tbl cbt fuel insts st = .ok (st', c, rm) →
        list_has_unreach c = false) := by
  intro fuel
  induction fuel with
  | zero =>
    refine ⟨?_, ?_, ?_, ?_, ?_, ?_⟩
    · intro v st st' c h
      exact Except.noConfusion h
    · intro ps st st' c h
      exact Except.noConfusion h
    · intro i st st' c h
      exact Except.noConfusion h
    · intro d av st st' c h
      rcases hlk : alist_lookup d tbl.block_params with _ | m <;>
        simp only [edge_writes, hlk] at h
      · simp only [Except.ok.injEq, Prod.mk.injEq] at h
        obtain ⟨h1, h2⟩ := h
        subst h2
        rfl
      · exact Except.noConfusion h
    · intro vs st st' c h
      exact Except.noConfusion h
    · intro insts st st' c rm h
      exact Except.noConfusion h
  | succ fuel ih =>
    obtain ⟨ihtv, ihja, ihbwi, ihew, ihev, ihbfp⟩ := ih
    have Htv : ∀ v st st' c, translate_value f tbl cbt (fuel + 1) v st = .ok (st', c) →
        list_has_unreach c = false := by
      intro v st st' c h
      rcases hd : f.value_def v with ⟨i, k⟩ | ⟨b, k⟩
      · rcases hop : Operand.try_from_table v tbl with _ | op
        · simp only [translate_value, hd, hop] at h
          exact Except.noConfusion h
        · cases op with
          | SingleUse val =>
            rcases hdv : f.value_def val with ⟨i2, k2⟩ | ⟨b2, k2⟩
            · simp only [translate_value, hd, hop, hdv] at h
              exact ihbwi _ _ _ _ h
            · simp only [translate_value, hd, hop, hdv] at h
              exact Except.noConfusion h
          | NormalUse val =>
            rcases hloc : alist_lookup val st.locals with _ | loc
            · rcases hdv : f.value_def val with ⟨i2, k2⟩ | ⟨b2, k2⟩
              · simp only [translate_value, hd, hop, hloc, hdv] at h
                obtain ⟨⟨st1, code⟩, hb, h⟩ := bind_eq_ok h
                have hcode := ihbwi _ _ _ _ hb
                rcases hwc : wasm_of_cranelift (f.value_type val) with _ | wty <;>
                  simp only [hwc, ModuleLocals.add] at h
                · exact Except.noConfusion h
                · simp only [Except.ok.injEq, Prod.mk.injEq] at h
                  obtain ⟨h1, h2⟩ := h
                  subst h2
                  simp [list_has_unreach_append, hcode, list_has_unreach,
                    instr_has_unreach]
              · simp only [translate_value, hd, hop, hloc, hdv] at h
                exact Except.noConfusion h
            · simp only [translate_value, hd, hop, hloc] at h
              simp only [Except.ok.injEq, Prod.mk.injEq] at h
              obtain ⟨h1, h2⟩ := h
              subst h2
              rfl
          | Rematerialise val =>
            rcases hdv : f.value_def val with ⟨i2, k2⟩ | ⟨b2, k2⟩
            · simp only [translate_value, hd, hop, hdv] at h
              exact ihbwi _ _ _ _ h
            · simp only [translate_value, hd, hop, hdv] at h
              exact Except.noConfusion h
      · rcases hbp : alist_lookup b tbl.block_params with _ | m
        · simp only [translate_value, hd, hbp] at h
          exact Except.noConfusion h
        · rcases hvm : alist_lookup v m with _ | loc <;>
            simp only [translate_value, hd, hbp, hvm] at h
          · exact Except.noConfusion h
          · simp only [Except.ok.injEq, Prod.mk.injEq] at h
            obtain ⟨h1, h2⟩ := h
            subst h2
            rfl
    have Hja : ∀ ps st st' c, emit_jump_args f tbl cbt (fuel + 1) ps st = .ok (st', c) →
        list_has_unreach c = false := by
      intro ps st st' c h
      cases ps with
      | nil =>
        simp only [emit_jump_args] at h
        simp only [Except.ok.injEq, Prod.mk.injEq] at h
        obtain ⟨h1, h2⟩ := h
        subst h2
        rfl
      | cons p rest =>
        obtain ⟨value, pp⟩ := p
        obtain ⟨pv, loc⟩ := pp
        simp only [emit_jump_args] at h
        obtain ⟨⟨st1, c1⟩, h1, h⟩ := bind_eq_ok h
        simp only [] at h
        obtain ⟨⟨st2, c2⟩, h2, h⟩ := bind_eq_ok h
        simp only [Except.ok.injEq, Prod.mk.injEq] at h
        obtain ⟨ha, hb⟩ := h
        subst hb
        have hc1 := ihtv _ _ _ _ h1
        have hc2 := ihja _ _ _ _ h2
        simp [list_has_unreach_append, hc1, hc2, list_has_unreach, instr_has_unreach]
    have Hbwi : ∀ i st st' c, build_wasm_inst f tbl cbt (fuel + 1) i st = .ok (st', c) →
        list_has_unreach c = false := by
      intro i st st' c h
      rcases hid : f.inst_data i with ⟨args, dst⟩ | ⟨op, args, dst⟩ | ⟨op, args⟩ |
        ⟨op, a, b⟩ | ⟨op, a, imm⟩ | ⟨op, a⟩ | ⟨op, imm⟩ | ⟨op, cnd, a, b⟩ |
        ⟨op, cnd, a, imm⟩ | args | args <;>
        simp only [build_wasm_inst, hid] at h <;>
        try exact Except.noConfusion h
      · -- Binary
        obtain ⟨⟨st1, c1⟩, h1, h⟩ := bind_eq_ok h
        simp only [] at h
        obtain ⟨⟨st2, c2⟩, h2, h⟩ := bind_eq_ok h
        simp only [] at h
        have hc1 := ihtv _ _ _ _ h1
        have hc2 := ihtv _ _ _ _ h2
        rcases op <;> simp only [] at h <;>
          try exact Except.noConfusion h
        all_goals (
          split at h <;> [skip; split at h] <;>
            first
            | exact Except.noConfusion h
            | (simp only [Except.ok.injEq, Prod.mk.injEq] at h
               obtain ⟨ha, hb⟩ := h
               subst hb
               simp [list_has_unreach_append, hc1, hc2, list_has_unreach,
                 instr_has_unreach]))
      · -- BinaryImm64
        rcases op <;> simp only [] at h <;>
          first
          | (simp only [Except.ok.injEq, Prod.mk.injEq] at h
             obtain ⟨ha, hb⟩ := h
             subst hb
             rfl)
          | skip
        split at h
        · obtain ⟨⟨st1, c1⟩, h1, h⟩ := bind_eq_ok h
          simp only [] at h
          have hc1 := ihtv _ _ _ _ h1
          split at h <;> [skip; split at h] <;>
            first
            | exact Except.noConfusion h
            | (simp only [Except.ok.injEq, Prod.mk.injEq] at h
               obtain ⟨ha, hb⟩ := h
               subst hb
               simp [list_has_unreach_append, hc1, list_has_unreach,
                 instr_has_unreach])
        · exact Except.noConfusion h
      · -- UnaryImm
        rcases op <;> simp only [] at h <;>
          try exact Except.noConfusion h
        rcases hres : f.inst_results i with _ | ⟨val, more⟩ <;>
          simp only [hres] at h
        · exact Except.noConfusion h
        · split at h
          · split at h <;> [skip; split at h] <;>
              (simp only [Except.ok.injEq, Prod.mk.injEq] at h
               obtain ⟨ha, hb⟩ := h
               subst hb
               rfl)
          · exact Except.noConfusion h
      · -- IntCompare
        obtain ⟨⟨st1, c1⟩, h1, h⟩ := bind_eq_ok h
        simp only [] at h
        obtain ⟨⟨st2, c2⟩, h2, h⟩ := bind_eq_ok h
        simp only [] at h
        have hc1 := ihtv _ _ _ _ h1
        have hc2 := ihtv _ _ _ _ h2
        split at h
        · rcases op <;> simp only [] at h <;>
            try exact Except.noConfusion h
          rcases cnd <;> simp only [] at h <;>
            try exact Except.noConfusion h
          all_goals (
            split at h <;> [skip; split at h] <;>
              first
              | exact Except.noConfusion h
              | (simp only [Except.ok.injEq, Prod.mk.injEq] at h
                 obtain ⟨ha, hb⟩ := h
                 subst hb
                 simp [list_has_unreach_append, hc1, hc2, list_has_unreach,
                   instr_has_unreach]))
        · exact Except.noConfusion h
      · -- IntCompareImm
        split at h
        · rcases op <;> simp only [] at h <;>
            try exact Except.noConfusion h
          obtain ⟨⟨st1, c1⟩, h1, h⟩ := bind_eq_ok h
          simp only [] at h
          have hc1 := ihtv _ _ _ _ h1
          split at h <;> [skip; split at h] <;>
            simp only [ok_bind, error_bind] at h <;>
            first
            | exact Except.noConfusion h
            | (rcases hwc : wasm_of_cond cnd ((f.value_type a).bits == 32) with _ | wop <;>
                simp only [hwc] at h
               · exact Except.noConfusion h
               · simp only [Except.ok.injEq, Prod.mk.injEq] at h
                 obtain ⟨ha, hb⟩ := h
                 subst hb
                 simp [list_has_unreach_append, hc1, list_has_unreach,
                   instr_has_unreach])
        · exact Except.noConfusion h
    have Hew : ∀ d av st st' c, edge_writes f tbl cbt (fuel + 1) d av st = .ok (st', c) →
        list_has_unreach c = false := by
      intro d av st st' c h
      rcases hlk : alist_lookup d tbl.block_params with _ | m <;>
        simp only [edge_writes, hlk] at h
      · simp only [Except.ok.injEq, Prod.mk.injEq] at h
        obtain ⟨h1, h2⟩ := h
        subst h2
        rfl
      · exact Hja _ _ _ _ h
    have Hev : ∀ vs st st' c, emit_values f tbl cbt (fuel + 1) vs st = .ok (st', c) →
        list_has_unreach c = false := by
      intro vs st st' c h
      cases vs with
      | nil =>
        simp only [emit_values] at h
        simp only [Except.ok.injEq, Prod.mk.injEq] at h
        obtain ⟨h1, h2⟩ := h
        subst h2
        rfl
      | cons v rest =>
        simp only [emit_values] at h
        obtain ⟨⟨st1, c1⟩, h1, h⟩ := bind_eq_ok h
        simp only [] at h
        obtain ⟨⟨st2, c2⟩, h2, h⟩ := bind_eq_ok h
        simp only [Except.ok.injEq, Prod.mk.injEq] at h
        obtain ⟨ha, hb⟩ := h
        subst hb
        have hc1 := ihtv _ _ _ _ h1
        have hc2 := ihev _ _ _ _ h2
        simp [list_has_unreach_append, hc1, hc2]
    have Hbfp : ∀ insts st st' c rm,
        build_from_pos f tbl cbt (fuel + 1) insts st = .ok (st', c, rm) →
        list_has_unreach c = false := by
      intro insts st st' c rm h
      cases insts with
      | nil =>
        simp only [build_from_pos] at h
        simp only [Except.ok.injEq, Prod.mk.injEq] at h
        obtain ⟨h1, h2, h3⟩ := h
        subst h2
        rfl
      | cons inst rest =>
        rcases hid : f.inst_data inst with ⟨args, dst⟩ | ⟨op, args, dst⟩ |
          ⟨op, args⟩ | ⟨op, a, b⟩ | ⟨op, a, imm⟩ | ⟨op, a⟩ | ⟨op, imm⟩ |
          ⟨op, cnd, a, b⟩ | ⟨op, cnd, a, imm⟩ | args | args <;>
          simp only [build_from_pos, hid] at h
        · -- Jump
          obtain ⟨⟨st1, writes⟩, h1, h⟩ := bind_eq_ok h
          simp only [] at h
          have hwr := ihew _ _ _ _ _ h1
          rcases hlc : alist_lookup dst cbt.locally_computed with _ | bi
          · simp only [hlc] at h
            rcases hfr : alist_lookup dst cbt.from_relooper with _ | mode <;>
              simp only [hfr] at h
            · obtain ⟨⟨st2, more, rm2⟩, h2, h⟩ := bind_eq_ok h
              simp only [Except.ok.injEq, Prod.mk.injEq] at h
              obtain ⟨ha, hb, hc2⟩ := h
              subst hb
              have hmore := ihbfp _ _ _ _ _ h2
              simp [list_has_unreach_append, hwr, hmore]
            · cases mode with
              | LoopContinue id =>
                rcases hlt : alist_lookup id st1.loop_to_block with _ | seq <;>
                  simp only [hlt] at h
                · exact Except.noConfusion h
                · obtain ⟨⟨st2, more, rm2⟩, h2, h⟩ := bind_eq_ok h
                  simp only [Except.ok.injEq, Prod.mk.injEq] at h
                  obtain ⟨ha, hb, hc2⟩ := h
                  subst hb
                  have hmore := ihbfp _ _ _ _ _ h2
                  simp [list_has_unreach_append, hwr, hmore, list_has_unreach,
                    instr_has_unreach]
              | LoopBreak id =>
                simp only [Except.ok.injEq, Prod.mk.injEq] at h
                obtain ⟨ha, hb, hc2⟩ := h
                subst hb
                exact hwr
              | LoopBreakIntoMulti id => exact Except.noConfusion h
              | LoopContinueIntoMulti id => exact Except.noConfusion h
              | MergedBranch => exact Except.noConfusion h
              | MergedBranchIntoMulti => exact Except.noConfusion h
              | SetLabelAndBreak => exact Except.noConfusion h
          · obtain ⟨loc⟩ := bi
            simp only [hlc] at h
            obtain ⟨⟨st2, more, rm2⟩, h2, h⟩ := bind_eq_ok h
            simp only [Except.ok.injEq, Prod.mk.injEq] at h
            obtain ⟨ha, hb, hc2⟩ := h
            subst hb
            have hmore := ihbfp _ _ _ _ _ h2
            simp [list_has_unreach_append, hwr, hmore, list_has_unreach,
              instr_has_unreach]
        · -- Branch
          obtain ⟨⟨st1, writes⟩, h1, h⟩ := bind_eq_ok h
          simp only [] at h
          have hwr := ihew _ _ _ _ _ h1
          rcases hhd : args.head? with _ | arg <;> simp only [hhd] at h
          · exact Except.noConfusion h
          obtain ⟨⟨st2, ccode⟩, h2, h⟩ := bind_eq_ok h
          simp only [] at h
          have hcc := ihtv _ _ _ _ h2
          obtain ⟨norm, h3, h⟩ := bind_eq_ok h
          have hnorm : list_has_unreach norm = false :=
            cond_norm_no_unreach op (f.value_type arg) norm h3
          have hpre : list_has_unreach
              (branch_negate_pre (branch_negate cbt dst) (f.value_type arg)) = false := by
            unfold branch_negate_pre
            split
            · split
              · rfl
              · split <;> rfl
            · rfl
          have hpost : list_has_unreach
              (branch_negate_post (branch_negate cbt dst) (f.value_type arg)) = false := by
            unfold branch_negate_post
            split
            · split <;> rfl
            · rfl
          rcases hfr : alist_lookup dst cbt.from_relooper with _ | mode <;>
            simp only [hfr] at h
          · rcases hlc : alist_lookup dst cbt.locally_computed with _ | bi
            · simp only [hlc] at h
              obtain ⟨⟨st3, more, rm2⟩, h4, h⟩ := bind_eq_ok h
              simp only [Except.ok.injEq, Prod.mk.injEq] at h
              obtain ⟨ha, hb, hc2⟩ := h
              subst hb
              have hmore := ihbfp _ _ _ _ _ h4
              simp [list_has_unreach_append, hwr, hpre, hcc, hpost, hnorm, hmore]
            · obtain ⟨label⟩ := bi
              simp only [hlc] at h
              split at h
              · obtain ⟨⟨st3, ecode, rm1⟩, h4, h⟩ := bind_eq_ok h
                simp only [] at h
                obtain ⟨⟨st4, more, rm2⟩, h5, h⟩ := bind_eq_ok h
                simp only [Except.ok.injEq, Prod.mk.injEq] at h
                obtain ⟨ha, hb, hc2⟩ := h
                subst hb
                have hec := ihbfp _ _ _ _ _ h4
                have hmore := ihbfp _ _ _ _ _ h5
                simp [list_has_unreach_append, hwr, hpre, hcc, hpost, hnorm,
                  hec, hmore, list_has_unreach, instr_has_unreach]
              · exact Except.noConfusion h
          · cases mode with
            | LoopBreak id =>
              obtain ⟨⟨st3, ecode, rm1⟩, h4, h⟩ := bind_eq_ok h
              simp only [] at h
              obtain ⟨⟨st4, more, rm2⟩, h5, h⟩ := bind_eq_ok h
              simp only [Except.ok.injEq, Prod.mk.injEq] at h
              obtain ⟨ha, hb, hc2⟩ := h
              subst hb
              have hec := ihbfp _ _ _ _ _ h4
              have hmore := ihbfp _ _ _ _ _ h5
              simp [list_has_unreach_append, hwr, hpre, hcc, hpost, hnorm,
                hec, hmore, list_has_unreach, instr_has_unreach]
            | MergedBranch =>
              rcases hlcl : cbt.locally_computed with _ | ⟨⟨b0, bi0⟩, lcrest⟩ <;>
                simp only [hlcl] at h
              · exact Except.noConfusion h
              · obtain ⟨loc⟩ := bi0
                obtain ⟨⟨st3, ecode, rm1⟩, h4, h⟩ := bind_eq_ok h
                simp only [] at h
                obtain ⟨⟨st4, more, rm2⟩, h5, h⟩ := bind_eq_ok h
                simp only [Except.ok.injEq, Prod.mk.injEq] at h
                obtain ⟨ha, hb, hc2⟩ := h
                subst hb
                have hec := ihbfp _ _ _ _ _ h4
                have hmore := ihbfp _ _ _ _ _ h5
                simp [list_has_unreach_append, hwr, hpre, hcc, hpost, hnorm,
                  hec, hmore, list_has_unreach, instr_has_unreach]
            | LoopBreakIntoMulti id => exact Except.noConfusion h
            | LoopContinue id => exact Except.noConfusion h
            | LoopContinueIntoMulti id => exact Except.noConfusion h
            | MergedBranchIntoMulti => exact Except.noConfusion h
            | SetLabelAndBreak => exact Except.noConfusion h
        · -- MultiAry
          rcases op <;> simp only [] at h <;>
            try exact Except.noConfusion h
          obtain ⟨⟨st1, acode⟩, h1, h⟩ := bind_eq_ok h
          simp only [] at h
          obtain ⟨⟨st2, more, rm2⟩, h2, h⟩ := bind_eq_ok h
          simp only [Except.ok.injEq, Prod.mk.injEq] at h
          obtain ⟨ha, hb, hc2⟩ := h
          subst hb
          have hac := ihev _ _ _ _ h1
          have hmore := ihbfp _ _ _ _ _ h2
          simp [list_has_unreach_append, hac, hmore, list_has_unreach,
            instr_has_unreach]
        · exact ihbfp _ _ _ _ _ h
        · exact ihbfp _ _ _ _ _ h
        · exact ihbfp _ _ _ _ _ h
        · exact ihbfp _ _ _ _ _ h
        · exact ihbfp _ _ _ _ _ h
        · exact ihbfp _ _ _ _ _ h
        · exact ihbfp _ _ _ _ _ h
        · exact ihbfp _ _ _ _ _ h
    exact ⟨Htv, Hja, Hbwi, Hew, Hev, Hbfp⟩

/-- The code emitted for a single block contains no `unreachable`. -/
theorem build_wasm_block_no_unreach (f : Func) (tbl : OperandTable)
    (cbt : CanBranchTo) (fuel : Nat) (blk : BlockId) (st st' : TransState)
    (code : List WasmInstr)
    (h : build_wasm_block f tbl cbt fuel blk st = .ok (st', code)) :
    list_has_unreach code = false := by
  unfold build_wasm_block at h
  rcases hlk : alist_lookup blk f.blocks with _ | bd <;> simp only [hlk] at h
  · exact Except.noConfusion h
  · obtain ⟨⟨st1, c1, rm⟩, hb, h⟩ := bind_eq_ok h
    simp only [Except.ok.injEq, Prod.mk.injEq] at h
    obtain ⟨h1, h2⟩ := h
    subst h2
    exact (emitters_no_unreach f tbl cbt fuel).2.2.2.2.2 _ _ _ _ _ hb

/-- Over a shaped tree with no `Multiple` node, the structured driver emits
no `unreachable` instruction at all. -/
theorem compile_structured_no_unreach (f : Func) (tbl : OperandTable) :
    ∀ (fuel : Nat) (shape : ShapedBlock) (lab : Option LocalId)
      (st st' : TransState) (code : List WasmInstr),
      shape_no_multi shape = true →
      compile_structured f tbl fuel shape lab st = .ok (st', code) →
      list_has_unreach code = false := by
  intro fuel
  induction fuel with
  | zero =>
    intro shape lab st st' code _ h
    exact Except.noConfusion h
  | succ fuel ih =>
    intro shape lab st st' code hnm h
    cases shape with
    | Simple slabel branches immediate next =>
      rcases immediate with _ | imm <;> rcases next with _ | nxt
      · simp only [compile_structured] at h
        obtain ⟨⟨st2, code1⟩, hinner, h⟩ := bind_eq_ok h
        simp only [Except.ok.injEq, Prod.mk.injEq] at h
        obtain ⟨h1, h2⟩ := h
        subst h2
        exact build_wasm_block_no_unreach f tbl _ fuel slabel st st2 code1 hinner
      · simp only [shape_no_multi, Bool.and_eq_true] at hnm
        obtain ⟨hnm1, hnm2⟩ := hnm
        simp only [compile_structured] at h
        obtain ⟨⟨st2, code1⟩, hinner, h⟩ := bind_eq_ok h
        simp only [] at h
        obtain ⟨⟨st3, ncode⟩, hnext, h⟩ := bind_eq_ok h
        simp only [Except.ok.injEq, Prod.mk.injEq] at h
        obtain ⟨h1, h2⟩ := h
        subst h2
        have hb := build_wasm_block_no_unreach f tbl _ fuel slabel st st2 code1 hinner
        have hn := ih nxt none _ _ _ hnm2 hnext
        simp [list_has_unreach_append, hb, hn]
      · simp only [shape_no_multi, Bool.and_eq_true] at hnm
        obtain ⟨hnm1, hnm2⟩ := hnm
        simp only [compile_structured, ModuleLocals.add] at h
        obtain ⟨⟨st1, bcode⟩, hbb, h⟩ := bind_eq_ok h
        simp only [] at h
        obtain ⟨⟨st4, icode⟩, hci, h⟩ := bind_eq_ok h
        simp only [ok_bind, Except.ok.injEq, Prod.mk.injEq] at h
        obtain ⟨h1, h2⟩ := h
        subst h2
        have hb := build_wasm_block_no_unreach f tbl _ fuel slabel _ st1 bcode hbb
        have hi := ih imm _ _ _ _ hnm1 hci
        simp [list_has_unreach_append, hb, hi]
      · simp only [shape_no_multi, Bool.and_eq_true] at hnm
        obtain ⟨hnm1, hnm2⟩ := hnm
        simp only [compile_structured, ModuleLocals.add] at h
        obtain ⟨⟨st1, bcode⟩, hbb, h⟩ := bind_eq_ok h
        simp only [] at h
        obtain ⟨⟨st4, icode⟩, hci, h⟩ := bind_eq_ok h
        simp only [ok_bind] at h
        obtain ⟨⟨st3, ncode⟩, hnx, h⟩ := bind_eq_ok h
        simp only [Except.ok.injEq, Prod.mk.injEq] at h
        obtain ⟨h1, h2⟩ := h
        subst h2
        have hb := build_wasm_block_no_unreach f tbl _ fuel slabel _ st1 bcode hbb
        have hi := ih imm _ _ _ _ hnm1 hci
        have hn := ih nxt none _ _ _ hnm2 hnx
        simp [list_has_unreach_append, hb, hi, hn]
    | Loop loop_id inner next =>
      rcases next with _ | nxt
      · simp only [shape_no_multi, Bool.and_eq_true] at hnm
        obtain ⟨hnm1, hnm2⟩ := hnm
        simp only [compile_structured] at h
        obtain ⟨⟨st1, icode⟩, hin, h⟩ := bind_eq_ok h
        simp only [Except.ok.injEq, Prod.mk.injEq] at h
        obtain ⟨h1, h2⟩ := h
        subst h2
        have hic := ih inner none _ _ _ hnm1 hin
        simp [list_has_unreach, instr_has_unreach, hic]
      · simp only [shape_no_multi, Bool.and_eq_true] at hnm
        obtain ⟨hnm1, hnm2⟩ := hnm
        simp only [compile_structured] at h
        obtain ⟨⟨st1, icode⟩, hin, h⟩ := bind_eq_ok h
        simp only [] at h
        obtain ⟨⟨st2, ncode⟩, hnext, h⟩ := bind_eq_ok h
        simp only [Except.ok.injEq, Prod.mk.injEq] at h
        obtain ⟨h1, h2⟩ := h
        subst h2
        have hic := ih inner none _ _ _ hnm1 hin
        have hn := ih nxt none _ _ _ hnm2 hnext
        simp [list_has_unreach_append, list_has_unreach, instr_has_unreach, hic, hn]
    | Multiple handled =>
      simp [shape_no_multi] at hnm

/-! ### C6 -/

/-- C6 amended: `define_function` appends nothing after the top-level shape;
in particular, for any shaped tree containing no `Multiple` node, the emitted
function body contains no `unreachable` instruction at all — an `unreachable`
is emitted only where the driver closes a `Multiple` shape's guard chain. -/
theorem c6_amended (f : Func) (shape : ShapedBlock) (fuel : Nat)
    (r : TransState × List WasmInstr)
    (hshape : shape_no_multi shape = true)
    (h : define_function_body f shape fuel = .ok r) :
    list_has_unreach r.2 = false := by
  unfold define_function_body at h
  obtain ⟨⟨tbl, ml⟩, hfill, h⟩ := bind_eq_ok h
  simp only [] at h
  exact compile_structured_no_unreach f tbl fuel shape none _ r.1 r.2 hshape
    (by rw [← h])

/-- C6 amended, witness: the body emitted for the constant-return function
`cf6` (whose shaped tree has no `Multiple`) contains no `unreachable`. -/
theorem c6_amended_witness :
    list_has_unreach [WasmInstr.i32_const 42, .return_] = false :=
  c6_amended cf6 shape6 20 (⟨⟨[]⟩, [], [], 0⟩, [.i32_const 42, .return_]) rfl rfl

end CW
